import Mathlib

/-!
Verification of the ABNFEarley grammar model (src/abnfearley/grammar.py).

Two embeddings are developed.

The first is a pure value-level model: grammars are trees of rules and
nested elements, and the operations of the source (rule lookup via
Grammar.__getitem__, iteration, length, and the construction-time
validation performed by Grammar.__init__ through the register methods)
are translated as total functions on these trees.  This model captures
the behaviour of the source on fresh, unshared element trees, where the
duplicate-registration branch of GrammarElement.register never fires and
the only observable effect of registration is the RuleCall resolution
check of RuleCall.register.

The second is a heap model with explicit object identities: elements and
grammars are cells in a store addressed by numeric ids, and every method
of the source is translated in a state-threading style (returning the
possibly-updated heap next to its result, and keeping partial updates on
an exception, exactly as a Python interpreter would).  This model is
needed for the claims about object identity, duplicate registration,
field mutation by register, and mutation-freedom of the read operations.
-/

namespace ABNFEarley

/-- Python exception values raised by the grammar module: KeyError from
Grammar.__getitem__, ValueError from GrammarElement.register and
RuleCall.register.  The fault constructor is used by the heap model for
situations a Python run of the source cannot reach (dangling heap
references, recursion-fuel exhaustion). -/
inductive PyErr where
  | keyError (msg : String)
  | valueError (msg : String)
  | fault (msg : String)
deriving DecidableEq, Repr

/-- Value-level grammar elements, one constructor per concrete subclass
of GrammarElement in the source.  Byte strings are lists of byte codes;
Python ints are embedded as Int where the source annotates int. -/
inductive Elem where
  | alternation (elements : List Elem)
  | concatenation (elements : List Elem)
  | repetition (element : Elem) (lower : Int) (upper : Option Int)
  | literalString (string : List Nat) (caseSensitive : Bool)
  | literalRange (first : Int) (last : Int)
  | ruleCall (call : String)

/-- Value-level grammars: name, rule mapping in insertion order (Python
dict preserves insertion order; keys of one dict are unique), and the
imported grammars in order. -/
inductive Grammar where
  | mk (name : String) (rules : List (String × Elem)) (imports : List Grammar)

/-- Name of a grammar (source property Grammar.name). -/
def Grammar.name : Grammar → String
  | .mk n _ _ => n

/-- Rules of a grammar (source property Grammar.rules). -/
def Grammar.rules : Grammar → List (String × Elem)
  | .mk _ r _ => r

/-- Imports of a grammar (source property Grammar.imports). -/
def Grammar.imports : Grammar → List Grammar
  | .mk _ _ i => i

/-- Lookup in the own rule dict of a grammar: Python dict indexing.  A
dict has unique keys, so first-match lookup agrees with it. -/
def lookupRules : List (String × Elem) → String → Option Elem
  | [], _ => none
  | (k, v) :: rest, n => if k = n then some v else lookupRules rest n

/-- Message of the KeyError raised by Grammar.__getitem__. -/
def keyErrMsg (rule gname : String) : String :=
  "Rule \x27" ++ rule ++ "\x27 not defined in grammar \x27" ++ gname ++ "\x27."

mutual
/-- Embeds Grammar.__getitem__: own rules first, then each import in
order; raises KeyError when the rule resolves nowhere. -/
def getitemG : Grammar → String → Except PyErr Elem
  | .mk name rules imports, rule =>
    match lookupRules rules rule with
    | some rhs => Except.ok rhs
    | none => getitemSearch name rule imports
/-- Embeds the import loop of Grammar.__getitem__.  The loop body reads
if rule in grammar then return grammar[rule]; Mapping.__contains__ is
try __getitem__ and catch KeyError, so the test and the indexing are
inlined into a single recursive lookup whose success is kept and whose
failure moves to the next import. -/
def getitemSearch : String → String → List Grammar → Except PyErr Elem
  | name, rule, [] => Except.error (PyErr.keyError (keyErrMsg rule name))
  | name, rule, g :: gs =>
    match getitemG g rule with
    | Except.ok e => Except.ok e
    | Except.error _ => getitemSearch name rule gs
end

/-- Embeds Mapping.__contains__ on a Grammar: try Grammar.__getitem__,
catch KeyError.  This is the membership test used both by the import
loop of __getitem__ and by the validation check of RuleCall.register. -/
def containsG (g : Grammar) (rule : String) : Bool :=
  match getitemG g rule with
  | Except.ok _ => true
  | Except.error _ => false

mutual
/-- Modelled from the spec: a rule name is defined for a grammar when it
is a key of the grammar's own rules or is defined for some import, the
spec's description of where lookup resolves.  Used as the independent
reference point the lookup theorems are stated against. -/
def specDefined : Grammar → String → Bool
  | .mk _ rules imports, n =>
    (lookupRules rules n).isSome || specDefinedList imports n
/-- Modelled from the spec: specDefined on a list of imports. -/
def specDefinedList : List Grammar → String → Bool
  | [], _ => false
  | g :: gs, n => specDefined g n || specDefinedList gs n
end

mutual
/-- Embeds Grammar.__iter__: own rule names in insertion order, then
each import's names recursively, duplicates included. -/
def iterG : Grammar → List String
  | .mk _ rules imports => rules.map Prod.fst ++ iterList imports
/-- Iteration over a list of imported grammars. -/
def iterList : List Grammar → List String
  | [] => []
  | g :: gs => iterG g ++ iterList gs
end

mutual
/-- Embeds Grammar.__len__: number of own rules plus the recursive
total of each import. -/
def lenG : Grammar → Nat
  | .mk _ rules imports => rules.length + lenList imports
/-- Length total over a list of imported grammars. -/
def lenList : List Grammar → Nat
  | [] => 0
  | g :: gs => lenG g + lenList gs
end

/-- Embeds Repetition.__init__: the repeated element and the two bounds
are stored verbatim; the constructor performs no validation. -/
def repetitionInit (element : Elem) (lower : Int) (upper : Option Int) : Elem :=
  Elem.repetition element lower upper

/-- Embeds LiteralRange.__init__: the first and last byte codes are
stored verbatim; the constructor performs no validation. -/
def literalRangeInit (first last : Int) : Elem :=
  Elem.literalRange first last

/-- Source property Repetition.element. -/
def repElement : Elem → Option Elem
  | .repetition e _ _ => some e
  | _ => none

/-- Source property Repetition.lower. -/
def repLower : Elem → Option Int
  | .repetition _ l _ => some l
  | _ => none

/-- Source property Repetition.upper. -/
def repUpper : Elem → Option (Option Int)
  | .repetition _ _ u => some u
  | _ => none

/-- Source property LiteralRange.first. -/
def rangeFirst : Elem → Option Int
  | .literalRange f _ => some f
  | _ => none

/-- Source property LiteralRange.last. -/
def rangeLast : Elem → Option Int
  | .literalRange _ l => some l
  | _ => none

/-- Message of the ValueError raised by RuleCall.register (note that the
source quotes the rule name but not the grammar name). -/
def callMsg (call gname : String) : String :=
  "Called rule \x27" ++ call ++ "\x27 not defined in grammar " ++ gname ++ "."

mutual
/-- Value-level projection of GrammarElement.register on a fresh,
unshared tree: the parent is None everywhere, so the
duplicate-registration branch never fires, the field assignments have no
value-level content, and what remains observable is the traversal order
together with the resolution check of RuleCall.register against the
grammar under construction. -/
def checkE (g : Grammar) : Elem → Except PyErr Unit
  | .alternation es => checkList g es
  | .concatenation es => checkList g es
  | .repetition e _ _ => checkE g e
  | .literalString _ _ => Except.ok ()
  | .literalRange _ _ => Except.ok ()
  | .ruleCall c =>
    if containsG g c then Except.ok () else
      Except.error (PyErr.valueError (callMsg c g.name))
/-- Registration traversal over the children of an Alternation or a
Concatenation, stopping at the first exception. -/
def checkList (g : Grammar) : List Elem → Except PyErr Unit
  | [] => Except.ok ()
  | e :: es =>
    match checkE g e with
    | Except.ok _ => checkList g es
    | Except.error err => Except.error err
end

/-- The registration loop of Grammar.__init__ over the rule mapping,
stopping at the first exception. -/
def checkRules (g : Grammar) : List (String × Elem) → Except PyErr Unit
  | [] => Except.ok ()
  | (_, rhs) :: rest =>
    match checkE g rhs with
    | Except.ok _ => checkRules g rest
    | Except.error err => Except.error err

/-- Embeds Grammar.__init__ on fresh trees: the name, the rules and
the imported grammars are assigned first (so the grammar the checks
against already holds the complete rule mapping, including rules defined
later than the one being registered), then every right-hand side is
registered in order. -/
def initG (name : String) (rules : List (String × Elem))
    (imports : List Grammar) : Except PyErr Grammar :=
  let g := Grammar.mk name rules imports
  match checkRules g rules with
  | Except.ok _ => Except.ok g
  | Except.error err => Except.error err

mutual
/-- All rule names called anywhere in an element tree, in traversal
order; the collector the construction-validation theorems quantify
over. -/
def callsOf : Elem → List String
  | .alternation es => callsOfList es
  | .concatenation es => callsOfList es
  | .repetition e _ _ => callsOf e
  | .literalString _ _ => []
  | .literalRange _ _ => []
  | .ruleCall c => [c]
/-- callsOf over a list of elements. -/
def callsOfList : List Elem → List String
  | [] => []
  | e :: es => callsOf e ++ callsOfList es
end

/-! ## Heap model

Objects of the source are cells in a store addressed by numeric ids;
this level makes object identity, field mutation by register, and the
partial updates left behind by a raised exception expressible. -/

/-- Identity of a GrammarElement object. -/
abbrev ElemId := Nat

/-- Identity of a Grammar object. -/
abbrev GrammarId := Nat

/-- The constructor-set, never-mutated part of a GrammarElement object,
with children referred to by identity. -/
inductive ElemData where
  | alternation (elements : List ElemId)
  | concatenation (elements : List ElemId)
  | repetition (element : ElemId) (lower : Int) (upper : Option Int)
  | literalString (string : List Nat) (caseSensitive : Bool)
  | literalRange (first : Int) (last : Int)
  | ruleCall (call : String)
deriving DecidableEq, Repr

/-- Value of the _parent field: a GrammarElement or a Grammar. -/
inductive PyParent where
  | elem (id : ElemId)
  | grammar (id : GrammarId)
deriving DecidableEq, Repr

/-- A GrammarElement object: its structural data plus the three fields
set by GrammarElement.__init__ and mutated by register. -/
structure ElemCell where
  data : ElemData
  parent : Option PyParent
  rule : String
  grammar : Option GrammarId
deriving DecidableEq, Repr

/-- A Grammar object: the fields set by Grammar.__init__ and never
mutated afterwards. -/
structure GrammarCell where
  gname : String
  grules : List (String × ElemId)
  gimports : List GrammarId
deriving DecidableEq, Repr

/-- The object store: element cells and grammar cells by identity. -/
structure Heap where
  elems : List (ElemId × ElemCell)
  grammars : List (GrammarId × GrammarCell)
deriving DecidableEq, Repr

/-- First-match lookup in an association list. -/
def lookupKey {κ α : Type} [DecidableEq κ] : List (κ × α) → κ → Option α
  | [], _ => none
  | (k, v) :: rest, i => if k = i then some v else lookupKey rest i

/-- Replace the value at a key of an association list; absent keys are
left alone (the model only updates cells it has just looked up). -/
def updateKey {κ α : Type} [DecidableEq κ] :
    List (κ × α) → κ → α → List (κ × α)
  | [], _, _ => []
  | (k, v) :: rest, i, w =>
    if k = i then (k, w) :: rest else (k, v) :: updateKey rest i w

/-- Dereference an element id. -/
def Heap.elem (h : Heap) (i : ElemId) : Option ElemCell :=
  lookupKey h.elems i

/-- Overwrite the cell of an element id. -/
def Heap.setElem (h : Heap) (i : ElemId) (c : ElemCell) : Heap :=
  Heap.mk (updateKey h.elems i c) h.grammars

/-- Dereference a grammar id. -/
def Heap.gram (h : Heap) (i : GrammarId) : Option GrammarCell :=
  lookupKey h.grammars i

/-- Diagnostic for recursion fuel running out; unreachable for the fuel
bounds the theorems use. -/
def fuelMsg : String := "model recursion fuel exhausted"

/-- Diagnostic for a dangling id; unreachable for heaps whose references
all resolve, as any heap built by the source's constructors does. -/
def danglingMsg : String := "dangling heap reference"

mutual
/-- Heap-level Grammar.__getitem__, fuelled against cyclic import
graphs (which Python cannot build, imports being existing objects). -/
def getitemH : Nat → Heap → GrammarId → String → Except PyErr ElemId × Heap
  | 0, h, _, _ => (Except.error (PyErr.fault fuelMsg), h)
  | Nat.succ f, h, gid, rule =>
    match h.gram gid with
    | none => (Except.error (PyErr.fault danglingMsg), h)
    | some cell =>
      match lookupKey cell.grules rule with
      | some eid => (Except.ok eid, h)
      | none => getitemSearchH f h cell.gname rule cell.gimports
/-- Heap-level import loop of __getitem__, with Mapping.__contains__
inlined as try-lookup exactly as in the value-level model. -/
def getitemSearchH :
    Nat → Heap → String → String → List GrammarId → Except PyErr ElemId × Heap
  | _, h, name, rule, [] =>
    (Except.error (PyErr.keyError (keyErrMsg rule name)), h)
  | 0, h, _, _, _ :: _ => (Except.error (PyErr.fault fuelMsg), h)
  | Nat.succ f, h, name, rule, g :: gs =>
    match getitemH f h g rule with
    | (Except.ok e, h') => (Except.ok e, h')
    | (Except.error (PyErr.keyError _), h') => getitemSearchH f h' name rule gs
    | (Except.error e, h') => (Except.error e, h')
end

/-- Heap-level Mapping.__contains__ on a Grammar: try __getitem__ and
catch KeyError. -/
def containsH (f : Nat) (h : Heap) (gid : GrammarId) (rule : String) :
    Except PyErr Bool × Heap :=
  match getitemH f h gid rule with
  | (Except.ok _, h') => (Except.ok true, h')
  | (Except.error (PyErr.keyError _), h') => (Except.ok false, h')
  | (Except.error e, h') => (Except.error e, h')

/-- str(type(obj)) for each concrete GrammarElement class. -/
def typeNameOf : ElemData → String
  | .alternation _ => "<class \x27abnfearley.grammar.Alternation\x27>"
  | .concatenation _ => "<class \x27abnfearley.grammar.Concatenation\x27>"
  | .repetition _ _ _ => "<class \x27abnfearley.grammar.Repetition\x27>"
  | .literalString _ _ => "<class \x27abnfearley.grammar.LiteralString\x27>"
  | .literalRange _ _ => "<class \x27abnfearley.grammar.LiteralRange\x27>"
  | .ruleCall _ => "<class \x27abnfearley.grammar.RuleCall\x27>"

/-- str(type(parent)) as used by _location; a dangling id is rendered
distinctly, though no source-built heap dereferences one. -/
def parentTypeName (h : Heap) : Option PyParent → String
  | some (PyParent.elem i) =>
    match h.elem i with
    | some c => typeNameOf c.data
    | none => "<dangling>"
  | some (PyParent.grammar _) => "<class \x27abnfearley.grammar.Grammar\x27>"
  | none => "<class \x27NoneType\x27>"

/-- Embeds GrammarElement._location on explicit parent, rule and
grammar values (the source reads them from self when not given; both
call shapes map here with the respective triple). -/
def locationH (h : Heap) (parent : Option PyParent) (rule : String)
    (grammar : Option GrammarId) : String :=
  match parent with
  | some (PyParent.grammar gid) =>
    match h.gram gid with
    | some gc => "rule \x27" ++ rule ++ "\x27 in grammar \x27" ++ gc.gname ++ "\x27"
    | none => "unknown location"
  | _ =>
    match grammar with
    | some gid =>
      match h.gram gid with
      | some gc =>
        parentTypeName h parent ++ " in rule \x27" ++ rule ++
          "\x27 in grammar \x27" ++ gc.gname ++ "\x27"
      | none => "unknown location"
    | none => "unknown location"

/-- Message of the ValueError raised by the duplicate-registration
branch of GrammarElement.register. -/
def alreadyMsg (h : Heap) (d : ElemData) (newParent : PyParent)
    (newRule : String) (newGid : GrammarId) (oldParent : Option PyParent)
    (oldRule : String) (oldGid : Option GrammarId) : String :=
  typeNameOf d ++ " registered at " ++
    locationH h (some newParent) newRule (some newGid) ++
    " is already registered at " ++ locationH h oldParent oldRule oldGid ++ "."

/-- Name of a grammar object, for the RuleCall.register message. -/
def gramNameOf (h : Heap) (gid : GrammarId) : String :=
  match h.gram gid with
  | some gc => gc.gname
  | none => ""

mutual
/-- Heap-level GrammarElement.register, covering every override: the
duplicate check and the field assignments of the base class come first,
then Alternation and Concatenation register their children in order,
Repetition its inner element, and RuleCall checks that its target
resolves in the registering grammar.  An exception leaves all updates
already performed in place, as in Python. -/
def registerE :
    Nat → Heap → ElemId → PyParent → String → GrammarId → Except PyErr Unit × Heap
  | 0, h, _, _, _, _ => (Except.error (PyErr.fault fuelMsg), h)
  | Nat.succ f, h, i, parent, rule, gid =>
    match h.elem i with
    | none => (Except.error (PyErr.fault danglingMsg), h)
    | some cell =>
      match cell.parent with
      | some _ =>
        (Except.error (PyErr.valueError
          (alreadyMsg h cell.data parent rule gid cell.parent cell.rule
            cell.grammar)), h)
      | none =>
        let h1 := h.setElem i (ElemCell.mk cell.data (some parent) rule (some gid))
        match cell.data with
        | ElemData.alternation es => registerList f h1 es i rule gid
        | ElemData.concatenation es => registerList f h1 es i rule gid
        | ElemData.repetition e _ _ => registerE f h1 e (PyParent.elem i) rule gid
        | ElemData.literalString _ _ => (Except.ok (), h1)
        | ElemData.literalRange _ _ => (Except.ok (), h1)
        | ElemData.ruleCall c =>
          match containsH f h1 gid c with
          | (Except.ok true, h2) => (Except.ok (), h2)
          | (Except.ok false, h2) =>
            (Except.error (PyErr.valueError (callMsg c (gramNameOf h2 gid))), h2)
          | (Except.error e, h2) => (Except.error e, h2)
/-- Child-registration loop of Alternation.register and
Concatenation.register, stopping at the first exception. -/
def registerList :
    Nat → Heap → List ElemId → ElemId → String → GrammarId → Except PyErr Unit × Heap
  | _, h, [], _, _, _ => (Except.ok (), h)
  | 0, h, _ :: _, _, _, _ => (Except.error (PyErr.fault fuelMsg), h)
  | Nat.succ f, h, e :: es, p, rule, gid =>
    match registerE f h e (PyParent.elem p) rule gid with
    | (Except.ok _, h') => registerList f h' es p rule gid
    | (Except.error err, h') => (Except.error err, h')
end

/-- Registration loop of Grammar.__init__ over the rule mapping. -/
def initRulesH :
    Nat → Heap → List (String × ElemId) → GrammarId → Except PyErr Unit × Heap
  | _, h, [], _ => (Except.ok (), h)
  | f, h, (rule, rhs) :: rest, gid =>
    match registerE f h rhs (PyParent.grammar gid) rule gid with
    | (Except.ok _, h') => initRulesH f h' rest gid
    | (Except.error err, h') => (Except.error err, h')

/-- Heap-level Grammar.__init__: allocate the grammar object with its
name, rules and imports already assigned, then register every rule's
right-hand side in order at the new grammar. -/
def initH (f : Nat) (h : Heap) (gid : GrammarId) (name : String)
    (rules : List (String × ElemId)) (imports : List GrammarId) :
    Except PyErr Unit × Heap :=
  let h0 := Heap.mk h.elems ((gid, GrammarCell.mk name rules imports) :: h.grammars)
  initRulesH f h0 rules gid

/-- Children by identity of an element's structural data. -/
def childIds : ElemData → List ElemId
  | .alternation es => es
  | .concatenation es => es
  | .repetition e _ _ => [e]
  | _ => []

/-- Reachability through the child structure of the heap: the elements
of a rule's tree are the ids reachable from the rule's root. -/
inductive ReachesE (h : Heap) : ElemId → ElemId → Prop where
  | refl (i : ElemId) : ReachesE h i i
  | step (i j k : ElemId) (c : ElemCell) (hj : h.elem j = some c)
      (hk : k ∈ childIds c.data) (hij : ReachesE h i j) : ReachesE h i k

mutual
/-- Heap-level __eq__ of grammar elements: strict structural equality
exactly as each subclass implements it, comparing kinds, then lengths,
then children recursively, with no reference to object identity. -/
def pyEqElem : Nat → Heap → ElemId → ElemId → Except PyErr Bool × Heap
  | 0, h, _, _ => (Except.error (PyErr.fault fuelMsg), h)
  | Nat.succ f, h, i, j =>
    match h.elem i, h.elem j with
    | some ci, some cj =>
      match ci.data, cj.data with
      | ElemData.alternation es, ElemData.alternation fs =>
        if es.length = fs.length then pyEqList f h es fs else (Except.ok false, h)
      | ElemData.alternation _, _ => (Except.ok false, h)
      | ElemData.concatenation es, ElemData.concatenation fs =>
        if es.length = fs.length then pyEqList f h es fs else (Except.ok false, h)
      | ElemData.concatenation _, _ => (Except.ok false, h)
      | ElemData.repetition e l u, ElemData.repetition e2 l2 u2 =>
        match pyEqElem f h e e2 with
        | (Except.ok b, h') =>
          (Except.ok (b && decide (l = l2) && decide (u = u2)), h')
        | (Except.error err, h') => (Except.error err, h')
      | ElemData.repetition _ _ _, _ => (Except.ok false, h)
      | ElemData.literalString s b, ElemData.literalString s2 b2 =>
        (Except.ok (decide (s = s2) && (b == b2)), h)
      | ElemData.literalString _ _, _ => (Except.ok false, h)
      | ElemData.literalRange a b, ElemData.literalRange a2 b2 =>
        (Except.ok (decide (a = a2) && decide (b = b2)), h)
      | ElemData.literalRange _ _, _ => (Except.ok false, h)
      | ElemData.ruleCall c, ElemData.ruleCall c2 =>
        (Except.ok (decide (c = c2)), h)
      | ElemData.ruleCall _, _ => (Except.ok false, h)
    | _, _ => (Except.error (PyErr.fault danglingMsg), h)
/-- Elementwise zip comparison of Alternation.__eq__ and
Concatenation.__eq__, stopping at the first mismatch. -/
def pyEqList : Nat → Heap → List ElemId → List ElemId → Except PyErr Bool × Heap
  | 0, h, _ :: _, _ :: _ => (Except.error (PyErr.fault fuelMsg), h)
  | Nat.succ f, h, e :: es, e2 :: es2 =>
    match pyEqElem f h e e2 with
    | (Except.ok true, h') => pyEqList f h' es es2
    | (Except.ok false, h') => (Except.ok false, h')
    | (Except.error err, h') => (Except.error err, h')
  | _, h, _, _ => (Except.ok true, h)
end

mutual
/-- Heap-level Grammar.__eq__: name, then the rule dicts, then
the lists of imports, all compared structurally. -/
def pyEqGrammar : Nat → Heap → GrammarId → GrammarId → Except PyErr Bool × Heap
  | 0, h, _, _ => (Except.error (PyErr.fault fuelMsg), h)
  | Nat.succ f, h, g1, g2 =>
    match h.gram g1, h.gram g2 with
    | some c1, some c2 =>
      if c1.gname = c2.gname then
        match rulesEqH f h c1.grules c2.grules with
        | (Except.ok true, h') => importsEqH f h' c1.gimports c2.gimports
        | (Except.ok false, h') => (Except.ok false, h')
        | (Except.error err, h') => (Except.error err, h')
      else (Except.ok false, h)
    | _, _ => (Except.error (PyErr.fault danglingMsg), h)
/-- Python dict equality on the rule mappings: equal sizes and, for
every key of the first, an equal value at that key in the second. -/
def rulesEqH :
    Nat → Heap → List (String × ElemId) → List (String × ElemId) →
    Except PyErr Bool × Heap
  | 0, h, _, _ => (Except.error (PyErr.fault fuelMsg), h)
  | Nat.succ f, h, rs1, rs2 =>
    if rs1.length = rs2.length then rulesEqGo f h rs1 rs2
    else (Except.ok false, h)
/-- Key-by-key part of dict equality on the rule mappings. -/
def rulesEqGo :
    Nat → Heap → List (String × ElemId) → List (String × ElemId) →
    Except PyErr Bool × Heap
  | _, h, [], _ => (Except.ok true, h)
  | 0, h, _ :: _, _ => (Except.error (PyErr.fault fuelMsg), h)
  | Nat.succ f, h, (k, v) :: rest, rs2 =>
    match lookupKey rs2 k with
    | none => (Except.ok false, h)
    | some v2 =>
      match pyEqElem f h v v2 with
      | (Except.ok true, h') => rulesEqGo f h' rest rs2
      | (Except.ok false, h') => (Except.ok false, h')
      | (Except.error err, h') => (Except.error err, h')
/-- Python list equality on the import lists: equal lengths and
elementwise equal grammars. -/
def importsEqH :
    Nat → Heap → List GrammarId → List GrammarId → Except PyErr Bool × Heap
  | 0, h, _, _ => (Except.error (PyErr.fault fuelMsg), h)
  | Nat.succ f, h, is1, is2 =>
    if is1.length = is2.length then importsEqGo f h is1 is2
    else (Except.ok false, h)
/-- Elementwise part of list equality on the import lists. -/
def importsEqGo :
    Nat → Heap → List GrammarId → List GrammarId → Except PyErr Bool × Heap
  | 0, h, _ :: _, _ :: _ => (Except.error (PyErr.fault fuelMsg), h)
  | Nat.succ f, h, g :: gs, g2 :: gs2 =>
    match pyEqGrammar f h g g2 with
    | (Except.ok true, h') => importsEqGo f h' gs gs2
    | (Except.ok false, h') => (Except.ok false, h')
    | (Except.error err, h') => (Except.error err, h')
  | _, h, _, _ => (Except.ok true, h)
end

mutual
/-- Heap-level Grammar.__iter__, materialised as the list of yielded
rule names: own names in insertion order, then each import's names
recursively, duplicates included. -/
def iterH : Nat → Heap → GrammarId → Except PyErr (List String) × Heap
  | 0, h, _ => (Except.error (PyErr.fault fuelMsg), h)
  | Nat.succ f, h, gid =>
    match h.gram gid with
    | none => (Except.error (PyErr.fault danglingMsg), h)
    | some cell =>
      match iterImportsH f h cell.gimports with
      | (Except.ok names, h') =>
        (Except.ok (cell.grules.map Prod.fst ++ names), h')
      | (Except.error e, h') => (Except.error e, h')
/-- Iteration over the imports of a grammar. -/
def iterImportsH : Nat → Heap → List GrammarId → Except PyErr (List String) × Heap
  | _, h, [] => (Except.ok [], h)
  | 0, h, _ :: _ => (Except.error (PyErr.fault fuelMsg), h)
  | Nat.succ f, h, g :: gs =>
    match iterH f h g with
    | (Except.ok ns, h') =>
      match iterImportsH f h' gs with
      | (Except.ok ms, h2) => (Except.ok (ns ++ ms), h2)
      | (Except.error e, h2) => (Except.error e, h2)
    | (Except.error e, h') => (Except.error e, h')
end

mutual
/-- Heap-level Grammar.__len__: own rule count plus each import's
recursive total. -/
def lenH : Nat → Heap → GrammarId → Except PyErr Nat × Heap
  | 0, h, _ => (Except.error (PyErr.fault fuelMsg), h)
  | Nat.succ f, h, gid =>
    match h.gram gid with
    | none => (Except.error (PyErr.fault danglingMsg), h)
    | some cell =>
      match lenImportsH f h cell.gimports with
      | (Except.ok n, h') => (Except.ok (cell.grules.length + n), h')
      | (Except.error e, h') => (Except.error e, h')
/-- Length total over the imports of a grammar. -/
def lenImportsH : Nat → Heap → List GrammarId → Except PyErr Nat × Heap
  | _, h, [] => (Except.ok 0, h)
  | 0, h, _ :: _ => (Except.error (PyErr.fault fuelMsg), h)
  | Nat.succ f, h, g :: gs =>
    match lenH f h g with
    | (Except.ok n, h') =>
      match lenImportsH f h' gs with
      | (Except.ok m, h2) => (Except.ok (n + m), h2)
      | (Except.error e, h2) => (Except.error e, h2)
    | (Except.error e, h') => (Except.error e, h')
end

/-- Diagnostic for reading a kind-specific attribute off the wrong
element kind; a faithful run never does. -/
def attrMsg : String := "attribute not defined on this element kind"

/-- Property GrammarElement.parent. -/
def parentOfH (h : Heap) (i : ElemId) : Except PyErr (Option PyParent) × Heap :=
  match h.elem i with
  | some c => (Except.ok c.parent, h)
  | none => (Except.error (PyErr.fault danglingMsg), h)

/-- Property GrammarElement.rule. -/
def ruleOfH (h : Heap) (i : ElemId) : Except PyErr String × Heap :=
  match h.elem i with
  | some c => (Except.ok c.rule, h)
  | none => (Except.error (PyErr.fault danglingMsg), h)

/-- Property GrammarElement.grammar. -/
def grammarOfH (h : Heap) (i : ElemId) : Except PyErr (Option GrammarId) × Heap :=
  match h.elem i with
  | some c => (Except.ok c.grammar, h)
  | none => (Except.error (PyErr.fault danglingMsg), h)

/-- Property Repetition.element. -/
def repElementH (h : Heap) (i : ElemId) : Except PyErr ElemId × Heap :=
  match h.elem i with
  | some c =>
    match c.data with
    | ElemData.repetition e _ _ => (Except.ok e, h)
    | _ => (Except.error (PyErr.fault attrMsg), h)
  | none => (Except.error (PyErr.fault danglingMsg), h)

/-- Property Repetition.lower. -/
def repLowerH (h : Heap) (i : ElemId) : Except PyErr Int × Heap :=
  match h.elem i with
  | some c =>
    match c.data with
    | ElemData.repetition _ l _ => (Except.ok l, h)
    | _ => (Except.error (PyErr.fault attrMsg), h)
  | none => (Except.error (PyErr.fault danglingMsg), h)

/-- Property Repetition.upper. -/
def repUpperH (h : Heap) (i : ElemId) : Except PyErr (Option Int) × Heap :=
  match h.elem i with
  | some c =>
    match c.data with
    | ElemData.repetition _ _ u => (Except.ok u, h)
    | _ => (Except.error (PyErr.fault attrMsg), h)
  | none => (Except.error (PyErr.fault danglingMsg), h)

/-- Property LiteralString.string. -/
def litStringH (h : Heap) (i : ElemId) : Except PyErr (List Nat) × Heap :=
  match h.elem i with
  | some c =>
    match c.data with
    | ElemData.literalString s _ => (Except.ok s, h)
    | _ => (Except.error (PyErr.fault attrMsg), h)
  | none => (Except.error (PyErr.fault danglingMsg), h)

/-- Property LiteralString.case_sensitive. -/
def litCaseH (h : Heap) (i : ElemId) : Except PyErr Bool × Heap :=
  match h.elem i with
  | some c =>
    match c.data with
    | ElemData.literalString _ b => (Except.ok b, h)
    | _ => (Except.error (PyErr.fault attrMsg), h)
  | none => (Except.error (PyErr.fault danglingMsg), h)

/-- Property LiteralRange.first. -/
def rangeFirstH (h : Heap) (i : ElemId) : Except PyErr Int × Heap :=
  match h.elem i with
  | some c =>
    match c.data with
    | ElemData.literalRange a _ => (Except.ok a, h)
    | _ => (Except.error (PyErr.fault attrMsg), h)
  | none => (Except.error (PyErr.fault danglingMsg), h)

/-- Property LiteralRange.last. -/
def rangeLastH (h : Heap) (i : ElemId) : Except PyErr Int × Heap :=
  match h.elem i with
  | some c =>
    match c.data with
    | ElemData.literalRange _ b => (Except.ok b, h)
    | _ => (Except.error (PyErr.fault attrMsg), h)
  | none => (Except.error (PyErr.fault danglingMsg), h)

/-- Property RuleCall.call. -/
def callOfH (h : Heap) (i : ElemId) : Except PyErr String × Heap :=
  match h.elem i with
  | some c =>
    match c.data with
    | ElemData.ruleCall n => (Except.ok n, h)
    | _ => (Except.error (PyErr.fault attrMsg), h)
  | none => (Except.error (PyErr.fault danglingMsg), h)

/-- Sequence __len__ of Alternation and Concatenation. -/
def seqLenH (h : Heap) (i : ElemId) : Except PyErr Nat × Heap :=
  match h.elem i with
  | some c =>
    match c.data with
    | ElemData.alternation es => (Except.ok es.length, h)
    | ElemData.concatenation es => (Except.ok es.length, h)
    | _ => (Except.error (PyErr.fault attrMsg), h)
  | none => (Except.error (PyErr.fault danglingMsg), h)

/-- Sequence __getitem__ of Alternation and Concatenation at a
non-negative index. -/
def seqGetH (h : Heap) (i : ElemId) (k : Nat) : Except PyErr ElemId × Heap :=
  match h.elem i with
  | some c =>
    match c.data with
    | ElemData.alternation es =>
      match es.get? k with
      | some e => (Except.ok e, h)
      | none => (Except.error (PyErr.fault attrMsg), h)
    | ElemData.concatenation es =>
      match es.get? k with
      | some e => (Except.ok e, h)
      | none => (Except.error (PyErr.fault attrMsg), h)
    | _ => (Except.error (PyErr.fault attrMsg), h)
  | none => (Except.error (PyErr.fault danglingMsg), h)

/-- Property Grammar.name. -/
def gramNameH (h : Heap) (g : GrammarId) : Except PyErr String × Heap :=
  match h.gram g with
  | some c => (Except.ok c.gname, h)
  | none => (Except.error (PyErr.fault danglingMsg), h)

/-- Property Grammar.rules. -/
def gramRulesH (h : Heap) (g : GrammarId) :
    Except PyErr (List (String × ElemId)) × Heap :=
  match h.gram g with
  | some c => (Except.ok c.grules, h)
  | none => (Except.error (PyErr.fault danglingMsg), h)

/-- Property Grammar.imports. -/
def gramImportsH (h : Heap) (g : GrammarId) :
    Except PyErr (List GrammarId) × Heap :=
  match h.gram g with
  | some c => (Except.ok c.gimports, h)
  | none => (Except.error (PyErr.fault danglingMsg), h)

/-! ## Rendering

Embeddings of the __repr__ and __str__ methods, the string/debug
surface of the module. -/

/-- os.linesep on the POSIX platforms the model targets. -/
def linesep : String := "\n"

/-- n spaces, the indent * space-character idiom of the source. -/
def spaces (n : Nat) : String :=
  String.mk (List.replicate n (Char.ofNat 32))

/-- One uppercase hex digit. -/
def hexDigitU (n : Nat) : String :=
  if n < 10 then (Char.ofNat (48 + n)).toString else (Char.ofNat (55 + n)).toString

/-- One lowercase hex digit. -/
def hexDigitL (n : Nat) : String :=
  if n < 10 then (Char.ofNat (48 + n)).toString else (Char.ofNat (87 + n)).toString

/-- Uppercase hex digits of a natural number, no leading zeros. -/
def hexUpperAux : Nat → Nat → String
  | 0, _ => ""
  | Nat.succ f, n =>
    if n < 16 then hexDigitU n else hexUpperAux f (n / 16) ++ hexDigitU (n % 16)

/-- Uppercase hex rendering of a natural number. -/
def hexUpper (n : Nat) : String := hexUpperAux (n + 1) n

/-- Pad a string on the left with spaces to width two, the default fill
of a 2X format specification. -/
def padTo2 (s : String) : String := if s.length < 2 then " " ++ s else s

/-- Python format(n, "2X") for a byte value. -/
def fmt2X (n : Nat) : String := padTo2 (hexUpper n)

/-- Python format(i, "2X") for a possibly negative int. -/
def fmt2XInt (i : Int) : String :=
  if i < 0 then padTo2 ("-" ++ hexUpper (Int.toNat (-i)))
  else padTo2 (hexUpper (Int.toNat i))

/-- One character of a Python str repr, given the chosen delimiter.
ASCII control characters are hex-escaped; characters above ASCII are
kept literal (Python escapes only the non-printable ones among them, a
case no grammar or rule name of the test surface reaches). -/
def strReprChar (delim : Char) (c : Char) : String :=
  if c = Char.ofNat 92 then "\\\\"
  else if c = delim then "\\" ++ delim.toString
  else if c = Char.ofNat 10 then "\\n"
  else if c = Char.ofNat 13 then "\\r"
  else if c = Char.ofNat 9 then "\\t"
  else if c.toNat < 32 ∨ c.toNat = 127 then
    "\\x" ++ hexDigitL ((c.toNat / 16) % 16) ++ hexDigitL (c.toNat % 16)
  else c.toString

/-- Python repr of a str: single-quoted, switching to double quotes
when the string holds a single quote but no double quote. -/
def pyStrRepr (s : String) : String :=
  let delim :=
    if s.contains (Char.ofNat 39) && !(s.contains (Char.ofNat 34)) then
      Char.ofNat 34
    else Char.ofNat 39
  delim.toString ++ String.join (s.data.map (strReprChar delim)) ++ delim.toString

/-- One byte of a Python bytes repr, given the chosen delimiter. -/
def bytesReprByte (delim : Nat) (b : Nat) : String :=
  if b = 92 then "\\\\"
  else if b = delim then "\\" ++ (Char.ofNat delim).toString
  else if b = 9 then "\\t"
  else if b = 10 then "\\n"
  else if b = 13 then "\\r"
  else if 32 ≤ b ∧ b ≤ 126 then (Char.ofNat b).toString
  else "\\x" ++ hexDigitL ((b / 16) % 16) ++ hexDigitL (b % 16)

/-- Python repr of a bytes value. -/
def pyBytesRepr (s : List Nat) : String :=
  let delim := if s.contains 39 && !(s.contains 34) then 34 else 39
  "b" ++ (Char.ofNat delim).toString ++
    String.join (s.map (bytesReprByte delim)) ++ (Char.ofNat delim).toString

/-- Python repr of an Optional int: None or the decimal digits. -/
def optIntRepr : Option Int → String
  | none => "None"
  | some v => toString v

/-- Loop state of LiteralString.__str__: the accumulated result, the
component count, and the in-char-val and in-hex-val flags. -/
structure LitStrSt where
  res : String
  components : Nat
  inChar : Bool
  inHex : Bool

/-- One iteration of the byte loop of LiteralString.__str__. -/
def litStrStep (caseSensitive : Bool) (st : LitStrSt) (b : Nat) : LitStrSt :=
  if 32 ≤ b ∧ b ≤ 126 ∧ b ≠ 34 then
    let st1 :=
      if st.inHex then { st with res := st.res ++ " ", inHex := false } else st
    let st2 :=
      if !st1.inChar then
        { st1 with
          res := st1.res ++ (if caseSensitive then "%s" else "") ++ "\""
          inChar := true
          components := st1.components + 1 }
      else st1
    { st2 with res := st2.res ++ (Char.ofNat b).toString }
  else
    let st1 :=
      if st.inChar then { st with res := st.res ++ "\" ", inChar := false } else st
    let st2 :=
      if st1.inHex then { st1 with res := st1.res ++ "." }
      else
        { st1 with
          res := st1.res ++ "%x"
          inHex := true
          components := st1.components + 1 }
    { st2 with res := st2.res ++ fmt2X b }

/-- Embeds LiteralString.__str__: char-val and hex-val components
grouped over the bytes, closed and parenthesised as in the source. -/
def litStrRender (s : List Nat) (caseSensitive : Bool) (needsParens : Bool) :
    String :=
  let st := s.foldl (litStrStep caseSensitive) (LitStrSt.mk "" 0 false false)
  let res := if st.inChar then st.res ++ "\"" else st.res
  if needsParens ∧ st.components ≠ 1 then "(" ++ res ++ ")" else res

/-- Embeds LiteralRange.__str__. -/
def litRangeRender (a b : Int) : String :=
  "%x" ++ fmt2XInt a ++ "-" ++ fmt2XInt b

mutual
/-- Heap-level __str__ of grammar elements, dispatching on the element
kind exactly as the subclass overrides do. -/
def strElemH : Nat → Heap → ElemId → Bool → Except PyErr String × Heap
  | 0, h, _, _ => (Except.error (PyErr.fault fuelMsg), h)
  | Nat.succ f, h, i, needsParens =>
    match h.elem i with
    | none => (Except.error (PyErr.fault danglingMsg), h)
    | some c =>
      match c.data with
      | ElemData.alternation [] => (Except.ok ("()"), h)
      | ElemData.alternation [e] => strElemH f h e needsParens
      | ElemData.alternation es =>
        match strChildrenH f h es with
        | (Except.ok parts, h') =>
          let joined := String.intercalate (" / ") parts
          (Except.ok (if needsParens then "(" ++ joined ++ ")" else joined), h')
        | (Except.error e, h') => (Except.error e, h')
      | ElemData.concatenation [] => (Except.ok ("()"), h)
      | ElemData.concatenation [e] => strElemH f h e needsParens
      | ElemData.concatenation es =>
        match strChildrenH f h es with
        | (Except.ok parts, h') =>
          let joined := String.intercalate (" ") parts
          (Except.ok (if needsParens then "(" ++ joined ++ ")" else joined), h')
        | (Except.error e, h') => (Except.error e, h')
      | ElemData.repetition e l u =>
        match u with
        | some uv =>
          if l = uv then
            if l = 1 then strElemH f h e needsParens
            else if l > 1 then
              match strElemH f h e true with
              | (Except.ok s, h') => (Except.ok (toString l ++ s), h')
              | (Except.error er, h') => (Except.error er, h')
            else (Except.ok ("()"), h)
          else if uv = 1 then
            match strElemH f h e false with
            | (Except.ok s, h') => (Except.ok ("[" ++ s ++ "]"), h')
            | (Except.error er, h') => (Except.error er, h')
          else
            match strElemH f h e true with
            | (Except.ok s, h') =>
              (Except.ok (toString l ++ "*" ++ toString uv ++ s), h')
            | (Except.error er, h') => (Except.error er, h')
        | none =>
          if l = 0 then
            match strElemH f h e true with
            | (Except.ok s, h') => (Except.ok ("*" ++ s), h')
            | (Except.error er, h') => (Except.error er, h')
          else
            match strElemH f h e true with
            | (Except.ok s, h') => (Except.ok (toString l ++ "*" ++ s), h')
            | (Except.error er, h') => (Except.error er, h')
      | ElemData.literalString s cs =>
        (Except.ok (litStrRender s cs needsParens), h)
      | ElemData.literalRange a b => (Except.ok (litRangeRender a b), h)
      | ElemData.ruleCall cname => (Except.ok cname, h)
/-- Child list comprehension of the joined __str__ cases, each child
rendered with needs_parens True. -/
def strChildrenH : Nat → Heap → List ElemId → Except PyErr (List String) × Heap
  | _, h, [] => (Except.ok [], h)
  | 0, h, _ :: _ => (Except.error (PyErr.fault fuelMsg), h)
  | Nat.succ f, h, e :: es =>
    match strElemH f h e true with
    | (Except.ok s, h') =>
      match strChildrenH f h' es with
      | (Except.ok ss, h2) => (Except.ok (s :: ss), h2)
      | (Except.error er, h2) => (Except.error er, h2)
    | (Except.error er, h') => (Except.error er, h')
end

mutual
/-- Heap-level __repr__ of grammar elements at an indent. -/
def reprElemH : Nat → Heap → ElemId → Nat → Except PyErr String × Heap
  | 0, h, _, _ => (Except.error (PyErr.fault fuelMsg), h)
  | Nat.succ f, h, i, indent =>
    match h.elem i with
    | none => (Except.error (PyErr.fault danglingMsg), h)
    | some c =>
      match c.data with
      | ElemData.alternation es =>
        match reprChildrenH f h es (indent + 4) true with
        | (Except.ok parts, h') =>
          (Except.ok (spaces indent ++ "abnfearley.Alternation([" ++ parts ++ "])"),
            h')
        | (Except.error er, h') => (Except.error er, h')
      | ElemData.concatenation es =>
        match reprChildrenH f h es (indent + 4) true with
        | (Except.ok parts, h') =>
          (Except.ok
            (spaces indent ++ "abnfearley.Concatenation([" ++ parts ++ "])"), h')
        | (Except.error er, h') => (Except.error er, h')
      | ElemData.repetition e l u =>
        match reprElemH f h e (indent + 4) with
        | (Except.ok s, h') =>
          (Except.ok (spaces indent ++ "abnfearley.Repetition(" ++ linesep ++ s ++
            "," ++ linesep ++ spaces (indent + 4) ++ toString l ++ ", " ++
            optIntRepr u ++ ")"), h')
        | (Except.error er, h') => (Except.error er, h')
      | ElemData.literalString s cs =>
        (Except.ok (spaces indent ++ "abnfearley.LiteralString(" ++
          pyBytesRepr s ++ (if !cs then ", False" else "") ++ ")"), h)
      | ElemData.literalRange a b =>
        (Except.ok (spaces indent ++ "abnfearley.LiteralRange(" ++ toString a ++
          ", " ++ toString b ++ ")"), h)
      | ElemData.ruleCall cname =>
        (Except.ok (spaces indent ++ "abnfearley.RuleCall(" ++
          pyStrRepr cname ++ ")"), h)
/-- Child loop of Alternation.__repr__ and Concatenation.__repr__: a
comma before every child except the first, then a line break, then the
child at the deeper indent. -/
def reprChildrenH :
    Nat → Heap → List ElemId → Nat → Bool → Except PyErr String × Heap
  | _, h, [], _, _ => (Except.ok (""), h)
  | 0, h, _ :: _, _, _ => (Except.error (PyErr.fault fuelMsg), h)
  | Nat.succ f, h, e :: es, indent, first =>
    match reprElemH f h e indent with
    | (Except.ok s, h') =>
      match reprChildrenH f h' es indent false with
      | (Except.ok rest, h2) =>
        (Except.ok ((if first then "" else ",") ++ linesep ++ s ++ rest), h2)
      | (Except.error er, h2) => (Except.error er, h2)
    | (Except.error er, h') => (Except.error er, h')
end

/-- Rule loop of Grammar.__repr__. -/
def reprRulesH :
    Nat → Heap → List (String × ElemId) → Nat → Bool → Except PyErr String × Heap
  | _, h, [], _, _ => (Except.ok (""), h)
  | f, h, (rule, rhs) :: rest, indent, first =>
    match reprElemH f h rhs (indent + 5) with
    | (Except.ok s, h') =>
      match reprRulesH f h' rest indent false with
      | (Except.ok srest, h2) =>
        (Except.ok ((if first then "" else ",") ++ linesep ++ spaces indent ++
          "    (" ++ pyStrRepr rule ++ "," ++ linesep ++ s ++ ")" ++ srest), h2)
      | (Except.error er, h2) => (Except.error er, h2)
    | (Except.error er, h') => (Except.error er, h')

mutual
/-- Heap-level Grammar.__repr__ at an indent. -/
def reprGrammarH : Nat → Heap → GrammarId → Nat → Except PyErr String × Heap
  | 0, h, _, _ => (Except.error (PyErr.fault fuelMsg), h)
  | Nat.succ f, h, gid, indent =>
    match h.gram gid with
    | none => (Except.error (PyErr.fault danglingMsg), h)
    | some c =>
      match reprRulesH f h c.grules indent true with
      | (Except.ok rulesPart, h') =>
        match reprImportsH f h' c.gimports indent true with
        | (Except.ok importsPart, h2) =>
          (Except.ok (spaces indent ++ "abnfearley.Grammar(" ++
            pyStrRepr c.gname ++ ", " ++ "collections.OrderedDict([" ++
            rulesPart ++ "]), [" ++ importsPart ++ "])"), h2)
        | (Except.error er, h2) => (Except.error er, h2)
      | (Except.error er, h') => (Except.error er, h')
/-- Import loop of Grammar.__repr__. -/
def reprImportsH :
    Nat → Heap → List GrammarId → Nat → Bool → Except PyErr String × Heap
  | _, h, [], _, _ => (Except.ok (""), h)
  | 0, h, _ :: _, _, _ => (Except.error (PyErr.fault fuelMsg), h)
  | Nat.succ f, h, g :: gs, indent, first =>
    match reprGrammarH f h g (indent + 4) with
    | (Except.ok s, h') =>
      match reprImportsH f h' gs indent false with
      | (Except.ok rest, h2) =>
        (Except.ok ((if first then "" else ",") ++ linesep ++ s ++ rest), h2)
      | (Except.error er, h2) => (Except.error er, h2)
    | (Except.error er, h') => (Except.error er, h')
end

/-- Names of imported grammars, the list comprehension of
Grammar.__str__. -/
def importNamesH (h : Heap) : List GrammarId → Except PyErr (List String)
  | [] => Except.ok []
  | g :: gs =>
    match h.gram g with
    | some c =>
      match importNamesH h gs with
      | Except.ok ns => Except.ok (c.gname :: ns)
      | Except.error er => Except.error er
    | none => Except.error (PyErr.fault danglingMsg)

/-- Rule loop of Grammar.__str__. -/
def strRulesH :
    Nat → Heap → List (String × ElemId) → Except PyErr String × Heap
  | _, h, [] => (Except.ok (""), h)
  | f, h, (rule, rhs) :: rest =>
    match strElemH f h rhs false with
    | (Except.ok s, h') =>
      match strRulesH f h' rest with
      | (Except.ok srest, h2) =>
        (Except.ok (linesep ++ rule ++ " = " ++ s ++ srest), h2)
      | (Except.error er, h2) => (Except.error er, h2)
    | (Except.error er, h') => (Except.error er, h')

/-- Heap-level Grammar.__str__: the header, the import-names line
when imports exist, then one line per rule. -/
def strGrammarH (f : Nat) (h : Heap) (gid : GrammarId) :
    Except PyErr String × Heap :=
  match h.gram gid with
  | none => (Except.error (PyErr.fault danglingMsg), h)
  | some c =>
    match importNamesH h c.gimports with
    | Except.error er => (Except.error er, h)
    | Except.ok names =>
      let header := "; ===== Grammar " ++ c.gname ++ " ====="
      let withImports :=
        if c.gimports.isEmpty then header
        else header ++ linesep ++ "; uses rules from " ++
          String.intercalate (", ") names
      match strRulesH f h c.grules with
      | (Except.ok rulesPart, h') => (Except.ok (withImports ++ rulesPart), h')
      | (Except.error er, h') => (Except.error er, h')

/-! ## Lemmas: value-level lookup -/

mutual
/-- Lookup succeeds exactly on defined names and otherwise raises the
KeyError naming the looked-up grammar. -/
theorem getitemG_of_specDefined (g : Grammar) (n : String) :
    (specDefined g n = true → ∃ e, getitemG g n = Except.ok e) ∧
    (specDefined g n = false →
      getitemG g n = Except.error (PyErr.keyError (keyErrMsg n g.name))) := by
  cases g with
  | mk nm rules imports =>
    refine ⟨fun hs => ?_, fun hs => ?_⟩
    · cases hlk : lookupRules rules n with
      | some e => exact ⟨e, by simp [getitemG, hlk]⟩
      | none =>
        simp only [specDefined, hlk, Option.isSome_none, Bool.false_or] at hs
        obtain ⟨e, he⟩ := (getitemSearch_of_specDefinedList nm n imports).1 hs
        exact ⟨e, by simp [getitemG, hlk, he]⟩
    · cases hlk : lookupRules rules n with
      | some e => simp [specDefined, hlk] at hs
      | none =>
        simp only [specDefined, hlk, Option.isSome_none, Bool.false_or] at hs
        have he := (getitemSearch_of_specDefinedList nm n imports).2 hs
        simp [getitemG, hlk, he, Grammar.name]
/-- Search through the import list succeeds exactly on names defined in
some import and otherwise raises the outer grammar's KeyError. -/
theorem getitemSearch_of_specDefinedList (nm n : String) (gs : List Grammar) :
    (specDefinedList gs n = true → ∃ e, getitemSearch nm n gs = Except.ok e) ∧
    (specDefinedList gs n = false →
      getitemSearch nm n gs = Except.error (PyErr.keyError (keyErrMsg n nm))) := by
  cases gs with
  | nil => exact ⟨fun hs => by simp [specDefinedList] at hs, fun _ => rfl⟩
  | cons g rest =>
    refine ⟨fun hs => ?_, fun hs => ?_⟩
    · rcases Bool.or_eq_true_iff.mp (by simpa [specDefinedList] using hs) with hg | hrest
      · obtain ⟨e, he⟩ := (getitemG_of_specDefined g n).1 hg
        exact ⟨e, by simp [getitemSearch, he]⟩
      · cases hgd : specDefined g n with
        | true =>
          obtain ⟨e, he⟩ := (getitemG_of_specDefined g n).1 hgd
          exact ⟨e, by simp [getitemSearch, he]⟩
        | false =>
          have he := (getitemG_of_specDefined g n).2 hgd
          obtain ⟨e, hrest'⟩ := (getitemSearch_of_specDefinedList nm n rest).1 hrest
          exact ⟨e, by simp [getitemSearch, he, hrest']⟩
    · simp only [specDefinedList, Bool.or_eq_false_iff] at hs
      have he := (getitemG_of_specDefined g n).2 hs.1
      have hrest := (getitemSearch_of_specDefinedList nm n rest).2 hs.2
      simp [getitemSearch, he, hrest]
end

/-- containsG agrees with the spec-side definedness predicate. -/
theorem containsG_eq_specDefined (g : Grammar) (n : String) :
    containsG g n = specDefined g n := by
  cases hgd : specDefined g n with
  | true =>
    obtain ⟨e, he⟩ := (getitemG_of_specDefined g n).1 hgd
    simp [containsG, he]
  | false =>
    have he := (getitemG_of_specDefined g n).2 hgd
    simp [containsG, he]

/-- A defined name in the head of the import loop resolves there. -/
theorem getitemSearch_skip (nm n : String) (pre : List Grammar) (gi : Grammar)
    (post : List Grammar) (hpre : ∀ g' ∈ pre, specDefined g' n = false)
    (hgi : specDefined gi n = true) :
    getitemSearch nm n (pre ++ gi :: post) = getitemG gi n := by
  induction pre with
  | nil =>
    obtain ⟨e, he⟩ := (getitemG_of_specDefined gi n).1 hgi
    simp [getitemSearch, he]
  | cons g' rest ih =>
    have hg' := (getitemG_of_specDefined g' n).2 (hpre g' (by simp))
    have := ih (fun g hg => hpre g (by simp [hg]))
    simp [getitemSearch, hg', this]

/-! ## Claims C1, C6, C7 -/

/-- C1: looking a rule up returns the right-hand side from the
grammar's own rules when the name is a key there; otherwise it returns
the result of the first import (in order) for which the name is
defined; and it fails, with the KeyError naming the rule and the
grammar, exactly when the name is defined neither in the own rules nor
in any import (transitively). -/
theorem c1_lookup_resolution (g : Grammar) (n : String) :
    (∀ e, lookupRules g.rules n = some e → getitemG g n = Except.ok e) ∧
    (lookupRules g.rules n = none →
      ∀ pre gi post, g.imports = pre ++ gi :: post →
        (∀ g' ∈ pre, specDefined g' n = false) → specDefined gi n = true →
        getitemG g n = getitemG gi n) ∧
    ((∃ e, getitemG g n = Except.ok e) ↔ specDefined g n = true) ∧
    (specDefined g n = false →
      getitemG g n = Except.error (PyErr.keyError (keyErrMsg n g.name))) := by
  obtain ⟨nm, rules, imports⟩ := g
  refine ⟨fun e he => ?_, fun hlk pre gi post him hpre hgi => ?_,
    ⟨fun hok => ?_, fun hs => ?_⟩,
    fun hs => (getitemG_of_specDefined (Grammar.mk nm rules imports) n).2 hs⟩
  · simp only [Grammar.rules] at he
    simp [getitemG, he]
  · simp only [Grammar.rules] at hlk
    have : imports = pre ++ gi :: post := him
    subst this
    simp [getitemG, hlk, getitemSearch_skip nm n pre gi post hpre hgi]
  · by_contra hs
    have := (getitemG_of_specDefined (Grammar.mk nm rules imports) n).2
      (Bool.not_eq_true _ ▸ (by simpa using hs))
    obtain ⟨e, he⟩ := hok
    rw [he] at this
    exact Except.noConfusion this
  · exact (getitemG_of_specDefined (Grammar.mk nm rules imports) n).1 hs

/-- C1 witness: in a grammar with one import, a rule of the import
resolves through the import path to its right-hand side. -/
theorem c1_witness :
    getitemG (Grammar.mk "outer" [("b", Elem.ruleCall "a")]
      [Grammar.mk "inner" [("a", Elem.literalRange 48 57)] []]) "a" =
      Except.ok (Elem.literalRange 48 57) := by
  have h := (c1_lookup_resolution (Grammar.mk "outer" [("b", Elem.ruleCall "a")]
    [Grammar.mk "inner" [("a", Elem.literalRange 48 57)] []]) "a").2.1 rfl
    [] (Grammar.mk "inner" [("a", Elem.literalRange 48 57)] []) [] rfl
    (fun g' hg' => by cases hg') rfl
  exact h.trans (by simp [getitemG, lookupRules])

/-- C6 (amended): Repetition.__init__ stores the given bounds verbatim
and performs no validation, so the non-negativity of the lower bound
and the ordering of the bounds are conventions of well-formed grammars,
not invariants the constructor establishes. -/
theorem c6_repetition_stores_bounds_verbatim (e : Elem) (l : Int) (u : Option Int) :
    repLower (repetitionInit e l u) = some l ∧
    repUpper (repetitionInit e l u) = some u ∧
    repElement (repetitionInit e l u) = some e :=
  ⟨rfl, rfl, rfl⟩

/-- C6 counterexample: a Repetition with negative lower bound and upper
bound below the lower bound is constructed without error, and a Grammar
containing it is likewise constructed without error. -/
theorem c6_counterexample :
    repLower (repetitionInit (Elem.concatenation []) (-1) (some (-2))) = some (-1) ∧
    repUpper (repetitionInit (Elem.concatenation []) (-1) (some (-2))) =
      some (some (-2)) ∧
    ((-1 : Int) < 0) ∧ ((-2 : Int) < (-1 : Int)) ∧
    initG "G" [("R", repetitionInit (Elem.concatenation []) (-1) (some (-2)))] [] =
      Except.ok (Grammar.mk "G"
        [("R", Elem.repetition (Elem.concatenation []) (-1) (some (-2)))] []) :=
  ⟨rfl, rfl, by norm_num, by norm_num, rfl⟩

/-- C7 (amended): LiteralRange.__init__ stores the given byte codes
verbatim and performs no validation, so first not exceeding last is a
convention of well-formed grammars, not an invariant the constructor
establishes. -/
theorem c7_literal_range_stores_bounds_verbatim (a b : Int) :
    rangeFirst (literalRangeInit a b) = some a ∧
    rangeLast (literalRangeInit a b) = some b :=
  ⟨rfl, rfl⟩

/-! ## Lemmas: iteration and length -/

mutual
/-- Iteration yields exactly as many names as __len__ counts. -/
theorem iterG_length (g : Grammar) : (iterG g).length = lenG g := by
  cases g with
  | mk nm rules imports =>
    simp [iterG, lenG, iterList_length imports]
/-- iterG_length over a list of imports. -/
theorem iterList_length (gs : List Grammar) :
    (iterList gs).length = lenList gs := by
  cases gs with
  | nil => simp [iterList, lenList]
  | cons g rest => simp [iterList, lenList, iterG_length g, iterList_length rest]
end

/-- The import total of __len__ is the sum of the imports' lengths. -/
theorem lenList_eq_sum (gs : List Grammar) : lenList gs = (gs.map lenG).sum := by
  induction gs with
  | nil => rfl
  | cons g rest ih => simp [lenList, ih]

/-- The import part of __iter__ is the concatenation of the imports'
iterations. -/
theorem iterList_eq_join (gs : List Grammar) :
    iterList gs = (gs.map iterG).flatten := by
  induction gs with
  | nil => rfl
  | cons g rest ih => simp [iterList, ih]

/-! ## Claim C10 -/

/-- C10: __len__ is the number of own rules plus the recursive total of
each import, __iter__ yields the own rule names in insertion order
followed by each import's names recursively and yields exactly __len__
many names, and a name defined both in the grammar and in an import is
yielded and counted twice, as the concrete two-rule example shows. -/
theorem c10_len_iter (g : Grammar) :
    lenG g = g.rules.length + (g.imports.map lenG).sum ∧
    iterG g = g.rules.map Prod.fst ++ (g.imports.map iterG).flatten ∧
    (iterG g).length = lenG g ∧
    (iterG (Grammar.mk "o" [("a", Elem.concatenation [])]
      [Grammar.mk "i" [("a", Elem.concatenation [])] []])).count "a" = 2 ∧
    lenG (Grammar.mk "o" [("a", Elem.concatenation [])]
      [Grammar.mk "i" [("a", Elem.concatenation [])] []]) = 2 := by
  obtain ⟨nm, rules, imports⟩ := g
  refine ⟨?_, ?_, iterG_length _, rfl, rfl⟩
  · simp [lenG, Grammar.rules, Grammar.imports, lenList_eq_sum]
  · simp [iterG, Grammar.rules, Grammar.imports, iterList_eq_join]

/-! ## Lemmas: construction validation -/

mutual
/-- Registering a fresh element succeeds exactly when every rule call
in its tree resolves in the registering grammar. -/
theorem checkE_ok_iff (g : Grammar) (e : Elem) :
    checkE g e = Except.ok () ↔ ∀ c ∈ callsOf e, containsG g c = true := by
  cases e with
  | alternation es => simpa [checkE, callsOf] using checkList_ok_iff g es
  | concatenation es => simpa [checkE, callsOf] using checkList_ok_iff g es
  | repetition e' l u => simpa [checkE, callsOf] using checkE_ok_iff g e'
  | literalString s cs => simp [checkE, callsOf]
  | literalRange a b => simp [checkE, callsOf]
  | ruleCall c =>
    cases hc : containsG g c with
    | true => simp [checkE, hc, callsOf]
    | false => simp [checkE, hc, callsOf]
/-- checkE_ok_iff over a child list. -/
theorem checkList_ok_iff (g : Grammar) (es : List Elem) :
    checkList g es = Except.ok () ↔ ∀ c ∈ callsOfList es, containsG g c = true := by
  cases es with
  | nil => simp [checkList, callsOfList]
  | cons e rest =>
    have hl := checkList_ok_iff g rest
    cases hce : checkE g e with
    | ok u =>
      cases u
      have h1 := (checkE_ok_iff g e).mp hce
      have heq : checkList g (e :: rest) = checkList g rest := by
        simp [checkList, hce]
      rw [heq, hl]
      constructor
      · intro hrest c hc
        rcases List.mem_append.mp (by simpa [callsOfList] using hc) with hc1 | hc1
        · exact h1 c hc1
        · exact hrest c hc1
      · intro hall c hc
        exact hall c (by
          simp only [callsOfList, List.mem_append]
          exact Or.inr hc)
    | error er =>
      have heq : checkList g (e :: rest) = Except.error er := by
        simp [checkList, hce]
      rw [heq]
      constructor
      · intro habs
        exact Except.noConfusion habs
      · intro hall
        have h1 : checkE g e = Except.ok () := (checkE_ok_iff g e).mpr
          (fun c hc => hall c (by
            simp only [callsOfList, List.mem_append]
            exact Or.inl hc))
        rw [h1] at hce
        exact Except.noConfusion hce
end

mutual
/-- Every exception raised by fresh-tree registration is the ValueError
of RuleCall.register for some unresolvable call. -/
theorem checkE_error_form (g : Grammar) (e : Elem) (er : PyErr)
    (h : checkE g e = Except.error er) :
    ∃ c, er = PyErr.valueError (callMsg c g.name) ∧ containsG g c = false := by
  cases e with
  | alternation es => exact checkList_error_form g es er (by simpa [checkE] using h)
  | concatenation es => exact checkList_error_form g es er (by simpa [checkE] using h)
  | repetition e' l u => exact checkE_error_form g e' er (by simpa [checkE] using h)
  | literalString s cs => simp [checkE] at h
  | literalRange a b => simp [checkE] at h
  | ruleCall c =>
    cases hc : containsG g c with
    | true => simp [checkE, hc] at h
    | false =>
      refine ⟨c, ?_, hc⟩
      have heq : checkE g (Elem.ruleCall c) =
          Except.error (PyErr.valueError (callMsg c g.name)) := by
        simp [checkE, hc]
      exact (Except.error.inj (heq.symm.trans h)).symm
/-- checkE_error_form over a child list. -/
theorem checkList_error_form (g : Grammar) (es : List Elem) (er : PyErr)
    (h : checkList g es = Except.error er) :
    ∃ c, er = PyErr.valueError (callMsg c g.name) ∧ containsG g c = false := by
  cases es with
  | nil => simp [checkList] at h
  | cons e rest =>
    cases hce : checkE g e with
    | ok u =>
      cases u
      exact checkList_error_form g rest er (by simpa [checkList, hce] using h)
    | error er' =>
      have heq : checkList g (e :: rest) = Except.error er' := by
        simp [checkList, hce]
      have her : er' = er := Except.error.inj (heq.symm.trans h)
      exact her ▸ checkE_error_form g e er' hce
end

/-- The registration loop of Grammar.__init__ succeeds exactly when
every rule's tree passes registration. -/
theorem checkRules_ok_iff (g : Grammar) (rules : List (String × Elem)) :
    checkRules g rules = Except.ok () ↔
      ∀ p ∈ rules, ∀ c ∈ callsOf p.2, containsG g c = true := by
  induction rules with
  | nil => simp [checkRules]
  | cons p rest ih =>
    obtain ⟨r, rhs⟩ := p
    cases hce : checkE g rhs with
    | ok u =>
      cases u
      have h1 := (checkE_ok_iff g rhs).mp hce
      have heq : checkRules g ((r, rhs) :: rest) = checkRules g rest := by
        simp [checkRules, hce]
      rw [heq, ih]
      constructor
      · intro hrest q hq c hc
        rcases List.mem_cons.mp hq with hq1 | hq1
        · subst hq1
          exact h1 c hc
        · exact hrest q hq1 c hc
      · intro hall q hq c hc
        exact hall q (List.mem_cons_of_mem _ hq) c hc
    | error er =>
      have heq : checkRules g ((r, rhs) :: rest) = Except.error er := by
        simp [checkRules, hce]
      rw [heq]
      constructor
      · intro habs
        exact Except.noConfusion habs
      · intro hall
        have h2 : checkE g rhs = Except.ok () := (checkE_ok_iff g rhs).mpr
          (fun c hc => hall (r, rhs) (List.mem_cons_self _ _) c hc)
        rw [h2] at hce
        exact Except.noConfusion hce

/-- Every exception raised by the registration loop is the ValueError
of RuleCall.register for some unresolvable call. -/
theorem checkRules_error_form (g : Grammar) (rules : List (String × Elem))
    (er : PyErr) (h : checkRules g rules = Except.error er) :
    ∃ c, er = PyErr.valueError (callMsg c g.name) ∧ containsG g c = false := by
  induction rules with
  | nil => simp [checkRules] at h
  | cons p rest ih =>
    obtain ⟨r, rhs⟩ := p
    cases hce : checkE g rhs with
    | ok u =>
      cases u
      exact ih (by simpa [checkRules, hce] using h)
    | error er' =>
      have heq : checkRules g ((r, rhs) :: rest) = Except.error er' := by
        simp [checkRules, hce]
      have her : er' = er := Except.error.inj (heq.symm.trans h)
      exact her ▸ checkE_error_form g rhs er' hce

/-- Construction succeeds exactly when every rule call of every rule
tree resolves in the grammar under construction, and then returns the
grammar with the given fields. -/
theorem initG_ok_iff (name : String) (rules : List (String × Elem))
    (imports : List Grammar) :
    initG name rules imports = Except.ok (Grammar.mk name rules imports) ↔
      ∀ p ∈ rules, ∀ c ∈ callsOf p.2,
        containsG (Grammar.mk name rules imports) c = true := by
  cases hcr : checkRules (Grammar.mk name rules imports) rules with
  | ok u =>
    cases u
    have heq : initG name rules imports =
        Except.ok (Grammar.mk name rules imports) := by
      simp [initG, hcr]
    rw [heq]
    exact ⟨fun _ => (checkRules_ok_iff _ rules).mp hcr, fun _ => rfl⟩
  | error er =>
    have heq : initG name rules imports = Except.error er := by
      simp [initG, hcr]
    rw [heq]
    constructor
    · intro habs
      exact Except.noConfusion habs
    · intro hall
      rw [(checkRules_ok_iff _ rules).mpr hall] at hcr
      exact Except.noConfusion hcr

/-! ## Claims C2, C4 -/

/-- C2: constructing a Grammar succeeds exactly when every RuleCall
occurring in any rule's tree names a rule defined in the grammar's own
rules or (transitively) in its imports; when some call does not
resolve, construction raises the ValueError of RuleCall.register. -/
theorem c2_construction_validation (name : String)
    (rules : List (String × Elem)) (imports : List Grammar) :
    ((∃ g, initG name rules imports = Except.ok g) ↔
      ∀ p ∈ rules, ∀ c ∈ callsOf p.2,
        specDefined (Grammar.mk name rules imports) c = true) ∧
    ((¬ ∀ p ∈ rules, ∀ c ∈ callsOf p.2,
        specDefined (Grammar.mk name rules imports) c = true) →
      ∃ c, initG name rules imports =
        Except.error (PyErr.valueError (callMsg c name))) := by
  have hco : ∀ c, containsG (Grammar.mk name rules imports) c =
      specDefined (Grammar.mk name rules imports) c :=
    fun c => containsG_eq_specDefined _ c
  constructor
  · constructor
    · rintro ⟨g, hg⟩ p hp c hc
      have hgeq : g = Grammar.mk name rules imports := by
        cases hcr : checkRules (Grammar.mk name rules imports) rules with
        | ok u =>
          cases u
          have heq2 : initG name rules imports =
              Except.ok (Grammar.mk name rules imports) := by
            simp [initG, hcr]
          exact (Except.ok.inj (heq2.symm.trans hg)).symm
        | error er =>
          have heq2 : initG name rules imports = Except.error er := by
            simp [initG, hcr]
          rw [heq2] at hg
          exact Except.noConfusion hg
      subst hgeq
      rw [← hco c]
      exact (initG_ok_iff name rules imports).mp hg p hp c hc
    · intro hall
      refine ⟨Grammar.mk name rules imports,
        (initG_ok_iff name rules imports).mpr ?_⟩
      intro p hp c hc
      rw [hco c]
      exact hall p hp c hc
  · intro hnall
    cases hcr : checkRules (Grammar.mk name rules imports) rules with
    | ok u =>
      cases u
      exact absurd
        (fun p hp c hc => (hco c) ▸ (checkRules_ok_iff _ rules).mp hcr p hp c hc)
        hnall
    | error er =>
      obtain ⟨c, hcm, _⟩ := checkRules_error_form _ rules er hcr
      refine ⟨c, ?_⟩
      have heq2 : initG name rules imports = Except.error er := by
        simp [initG, hcr]
      rw [heq2, hcm]
      rfl

/-- C2 witness: construction of a grammar whose single rule calls the
undefined rule S raises the RuleCall ValueError. -/
theorem c2_witness :
    ∃ c, initG "G" [("R", Elem.ruleCall "S")] [] =
      Except.error (PyErr.valueError (callMsg c "G")) :=
  (c2_construction_validation "G" [("R", Elem.ruleCall "S")] []).2 (by
    intro hall
    have := hall ("R", Elem.ruleCall "S") (by simp) "S" (by simp [callsOf])
    simp [specDefined, lookupRules, specDefinedList] at this)

/-- C4: construction never rejects recursion: whenever every rule call
of every rule tree names a key of the grammar's own rule mapping (in
any position, later-defined rules and the rule itself included) or a
name defined in some import, construction succeeds. -/
theorem c4_recursion_not_rejected (name : String)
    (rules : List (String × Elem)) (imports : List Grammar)
    (h : ∀ p ∈ rules, ∀ c ∈ callsOf p.2,
      (lookupRules rules c).isSome = true ∨ specDefinedList imports c = true) :
    initG name rules imports = Except.ok (Grammar.mk name rules imports) := by
  refine (initG_ok_iff name rules imports).mpr (fun p hp c hc => ?_)
  rw [containsG_eq_specDefined]
  rcases h p hp c hc with h1 | h1 <;> simp [specDefined, h1]

/-- C4 witness: the self-recursive grammar R = "x" R / () is
constructed without error. -/
theorem c4_witness :
    initG "G" [("R", Elem.alternation
      [Elem.concatenation [Elem.literalString [120] true, Elem.ruleCall "R"],
       Elem.concatenation []])] [] =
      Except.ok (Grammar.mk "G" [("R", Elem.alternation
        [Elem.concatenation [Elem.literalString [120] true, Elem.ruleCall "R"],
         Elem.concatenation []])] []) := by
  refine c4_recursion_not_rejected "G" _ [] (fun p hp c hc => Or.inl ?_)
  simp at hp
  rw [hp] at hc
  simp [callsOf, callsOfList] at hc
  rw [hc]
  rfl

/-- C7 counterexample: a LiteralRange with first greater than last is
constructed without error, and a Grammar containing it is likewise
constructed without error. -/
theorem c7_counterexample :
    rangeFirst (literalRangeInit 5 3) = some 5 ∧
    rangeLast (literalRangeInit 5 3) = some 3 ∧
    ¬ ((5 : Int) ≤ 3) ∧
    initG "G" [("R", literalRangeInit 5 3)] [] =
      Except.ok (Grammar.mk "G" [("R", Elem.literalRange 5 3)] []) :=
  ⟨rfl, rfl, by norm_num, rfl⟩

/-! ## Lemmas: association lists and heap cells -/

/-- Updating the value at a present key is seen by lookup. -/
theorem lookupKey_updateKey_self {κ α : Type} [DecidableEq κ]
    (l : List (κ × α)) (k : κ) (v w : α) (h : lookupKey l k = some v) :
    lookupKey (updateKey l k w) k = some w := by
  induction l with
  | nil => simp [lookupKey] at h
  | cons p rest ih =>
    obtain ⟨k', v'⟩ := p
    by_cases hk : k' = k
    · subst hk
      simp [lookupKey, updateKey]
    · simp only [lookupKey, updateKey, if_neg hk] at h ⊢
      exact ih h

/-- Updating one key leaves lookup at any other key unchanged. -/
theorem lookupKey_updateKey_other {κ α : Type} [DecidableEq κ]
    (l : List (κ × α)) (k k' : κ) (w : α) (h : k' ≠ k) :
    lookupKey (updateKey l k w) k' = lookupKey l k' := by
  induction l with
  | nil => simp [updateKey, lookupKey]
  | cons p rest ih =>
    obtain ⟨k0, v0⟩ := p
    by_cases hk : k0 = k
    · subst hk
      have : ¬ (k0 = k') := fun he => h (he.symm)
      simp [updateKey, lookupKey, this]
    · simp only [updateKey, if_neg hk, lookupKey]
      by_cases hk' : k0 = k'
      · simp [hk']
      · simp [hk', ih]

/-- Writing a cell makes it visible at its id. -/
theorem Heap.elem_setElem_self (h : Heap) (i : ElemId) (c0 c : ElemCell)
    (hl : h.elem i = some c0) : (h.setElem i c).elem i = some c :=
  lookupKey_updateKey_self h.elems i c0 c hl

/-- Writing a cell leaves all other ids unchanged. -/
theorem Heap.elem_setElem_other (h : Heap) (i : ElemId) (c : ElemCell)
    (j : ElemId) (hne : j ≠ i) : (h.setElem i c).elem j = h.elem j :=
  lookupKey_updateKey_other h.elems i j c hne

/-- Writing an element cell leaves the grammar store unchanged. -/
theorem Heap.gram_setElem (h : Heap) (i : ElemId) (c : ElemCell)
    (g : GrammarId) : (h.setElem i c).gram g = h.gram g := rfl

/-! ## Lemmas: the read operations do not touch the heap -/

mutual
/-- Heap-level __getitem__ returns the heap unchanged. -/
theorem getitemH_heap (f : Nat) (h : Heap) (gid : GrammarId) (rule : String) :
    (getitemH f h gid rule).2 = h := by
  cases f with
  | zero => rfl
  | succ f =>
    cases hg : h.gram gid with
    | none => simp [getitemH, hg]
    | some cell =>
      cases hlk : lookupKey cell.grules rule with
      | some eid => simp [getitemH, hg, hlk]
      | none =>
        simpa [getitemH, hg, hlk] using
          getitemSearchH_heap f h cell.gname rule cell.gimports
/-- The import search of __getitem__ returns the heap unchanged. -/
theorem getitemSearchH_heap (f : Nat) (h : Heap) (nm rule : String)
    (gs : List GrammarId) : (getitemSearchH f h nm rule gs).2 = h := by
  cases gs with
  | nil => cases f <;> rfl
  | cons g rest =>
    cases f with
    | zero => rfl
    | succ f =>
      rcases hgi : getitemH f h g rule with ⟨res, h'⟩
      have hh : h' = h := by
        have := getitemH_heap f h g rule
        rw [hgi] at this
        exact this
      rw [hh] at hgi
      cases res with
      | ok e => simp [getitemSearchH, hgi]
      | error er =>
        cases er with
        | keyError m =>
          simpa [getitemSearchH, hgi] using
            getitemSearchH_heap f h nm rule rest
        | valueError m => simp [getitemSearchH, hgi]
        | fault m => simp [getitemSearchH, hgi]
end

/-- Heap-level __contains__ returns the heap unchanged. -/
theorem containsH_heap (f : Nat) (h : Heap) (gid : GrammarId) (rule : String) :
    (containsH f h gid rule).2 = h := by
  rcases hgi : getitemH f h gid rule with ⟨res, h'⟩
  have hh : h' = h := by
    have := getitemH_heap f h gid rule
    rw [hgi] at this
    exact this
  rw [hh] at hgi
  cases res with
  | ok e => simp [containsH, hgi]
  | error er => cases er <;> simp [containsH, hgi]

/-! ## Lemmas: what register does and does not mutate -/

/-- Writing a cell that keeps its data leaves every cell's data (and
the domain) unchanged. -/
theorem setElem_data_preserved (h : Heap) (i : ElemId) (cell : ElemCell)
    (hc : h.elem i = some cell) (pp : Option PyParent) (rr : String)
    (gg : Option GrammarId) (j : ElemId) :
    ((h.setElem i (ElemCell.mk cell.data pp rr gg)).elem j).map ElemCell.data =
      (h.elem j).map ElemCell.data := by
  by_cases hj : j = i
  · subst hj
    rw [Heap.elem_setElem_self h j cell _ hc, hc]
    rfl
  · rw [Heap.elem_setElem_other h i _ j hj]

mutual
/-- register touches only the parent, rule and grammar fields: every
cell's structural data, the heap's domain, and the grammar store are
unchanged whether it succeeds or raises. -/
theorem registerE_data (f : Nat) (h : Heap) (i : ElemId) (p : PyParent)
    (r : String) (g : GrammarId) :
    (∀ j, (((registerE f h i p r g).2).elem j).map ElemCell.data =
      (h.elem j).map ElemCell.data) ∧
    ((registerE f h i p r g).2).grammars = h.grammars := by
  cases f with
  | zero => exact ⟨fun j => rfl, rfl⟩
  | succ f =>
    cases hc : h.elem i with
    | none => simp [registerE, hc]
    | some cell =>
      cases hp : cell.parent with
      | some q => simp [registerE, hc, hp]
      | none =>
        have hd1 := setElem_data_preserved h i cell hc (some p) r (some g)
        cases hdata : cell.data with
        | alternation es =>
          have hred : registerE (Nat.succ f) h i p r g =
              registerList f (h.setElem i
                (ElemCell.mk cell.data (some p) r (some g))) es i r g := by
            conv_lhs => rw [registerE]
            simp [hc, hp, hdata]
          obtain ⟨ih1, ih2⟩ := registerList_data f
            (h.setElem i (ElemCell.mk cell.data (some p) r (some g))) es i r g
          rw [hred]
          exact ⟨fun j => (ih1 j).trans (hd1 j), ih2⟩
        | concatenation es =>
          have hred : registerE (Nat.succ f) h i p r g =
              registerList f (h.setElem i
                (ElemCell.mk cell.data (some p) r (some g))) es i r g := by
            conv_lhs => rw [registerE]
            simp [hc, hp, hdata]
          obtain ⟨ih1, ih2⟩ := registerList_data f
            (h.setElem i (ElemCell.mk cell.data (some p) r (some g))) es i r g
          rw [hred]
          exact ⟨fun j => (ih1 j).trans (hd1 j), ih2⟩
        | repetition e l u =>
          have hred : registerE (Nat.succ f) h i p r g =
              registerE f (h.setElem i
                (ElemCell.mk cell.data (some p) r (some g))) e
                (PyParent.elem i) r g := by
            conv_lhs => rw [registerE]
            simp [hc, hp, hdata]
          obtain ⟨ih1, ih2⟩ := registerE_data f
            (h.setElem i (ElemCell.mk cell.data (some p) r (some g))) e
            (PyParent.elem i) r g
          rw [hred]
          exact ⟨fun j => (ih1 j).trans (hd1 j), ih2⟩
        | literalString s cs =>
          have hred : (registerE (Nat.succ f) h i p r g).2 =
              h.setElem i (ElemCell.mk cell.data (some p) r (some g)) := by
            conv_lhs => rw [registerE]
            simp [hc, hp, hdata]
          rw [hred]
          exact ⟨hd1, rfl⟩
        | literalRange a b =>
          have hred : (registerE (Nat.succ f) h i p r g).2 =
              h.setElem i (ElemCell.mk cell.data (some p) r (some g)) := by
            conv_lhs => rw [registerE]
            simp [hc, hp, hdata]
          rw [hred]
          exact ⟨hd1, rfl⟩
        | ruleCall cn =>
          rcases hch : containsH f (h.setElem i
              (ElemCell.mk cell.data (some p) r (some g))) g cn with ⟨res, h2⟩
          have hh2 : h2 = h.setElem i
              (ElemCell.mk cell.data (some p) r (some g)) := by
            have := containsH_heap f (h.setElem i
              (ElemCell.mk cell.data (some p) r (some g))) g cn
            rw [hch] at this
            exact this
          have hred : (registerE (Nat.succ f) h i p r g).2 =
              h.setElem i (ElemCell.mk cell.data (some p) r (some g)) := by
            conv_lhs => rw [registerE]
            rw [hh2, hdata] at hch
            cases res with
            | ok b => cases b <;> simp [hc, hp, hdata, hch]
            | error er => simp [hc, hp, hdata, hch]
          rw [hred]
          exact ⟨hd1, rfl⟩
/-- registerE_data over a child list. -/
theorem registerList_data (f : Nat) (h : Heap) (es : List ElemId)
    (pid : ElemId) (r : String) (g : GrammarId) :
    (∀ j, (((registerList f h es pid r g).2).elem j).map ElemCell.data =
      (h.elem j).map ElemCell.data) ∧
    ((registerList f h es pid r g).2).grammars = h.grammars := by
  cases es with
  | nil => cases f <;> exact ⟨fun j => rfl, rfl⟩
  | cons e rest =>
    cases f with
    | zero => exact ⟨fun j => rfl, rfl⟩
    | succ f =>
      rcases hre : registerE f h e (PyParent.elem pid) r g with ⟨res, hm⟩
      obtain ⟨ih1, ih2⟩ := registerE_data f h e (PyParent.elem pid) r g
      rw [hre] at ih1 ih2
      cases res with
      | ok u =>
        obtain ⟨jh1, jh2⟩ := registerList_data f hm rest pid r g
        have hred : registerList (Nat.succ f) h (e :: rest) pid r g =
            registerList f hm rest pid r g := by
          conv_lhs => rw [registerList]
          cases u
          simp [hre]
        rw [hred]
        exact ⟨fun j => (jh1 j).trans (ih1 j), jh2.trans ih2⟩
      | error er =>
        have hred : (registerList (Nat.succ f) h (e :: rest) pid r g).2 = hm := by
          conv_lhs => rw [registerList]
          simp [hre]
        rw [hred]
        exact ⟨ih1, ih2⟩
end

mutual
/-- register never writes to a cell whose parent is already set: such a
cell is returned exactly as it was. -/
theorem registerE_keeps (f : Nat) (h : Heap) (i : ElemId) (p : PyParent)
    (r : String) (g : GrammarId) (j : ElemId) (c : ElemCell)
    (hj : h.elem j = some c) (hcp : c.parent.isSome = true) :
    ((registerE f h i p r g).2).elem j = some c := by
  cases f with
  | zero => exact hj
  | succ f =>
    cases hc : h.elem i with
    | none => simpa [registerE, hc] using hj
    | some cell =>
      cases hp : cell.parent with
      | some q => simpa [registerE, hc, hp] using hj
      | none =>
        have hji : j ≠ i := by
          intro he
          rw [he, hc] at hj
          have : cell.parent.isSome = true := by
            rw [show cell = c from Option.some.inj hj]
            exact hcp
          rw [hp] at this
          exact Bool.noConfusion this
        have hj1 : (h.setElem i
            (ElemCell.mk cell.data (some p) r (some g))).elem j = some c := by
          rw [Heap.elem_setElem_other h i _ j hji]
          exact hj
        cases hdata : cell.data with
        | alternation es =>
          have hred : registerE (Nat.succ f) h i p r g =
              registerList f (h.setElem i
                (ElemCell.mk cell.data (some p) r (some g))) es i r g := by
            conv_lhs => rw [registerE]
            simp [hc, hp, hdata]
          rw [hred]
          exact registerList_keeps f _ es i r g j c hj1 hcp
        | concatenation es =>
          have hred : registerE (Nat.succ f) h i p r g =
              registerList f (h.setElem i
                (ElemCell.mk cell.data (some p) r (some g))) es i r g := by
            conv_lhs => rw [registerE]
            simp [hc, hp, hdata]
          rw [hred]
          exact registerList_keeps f _ es i r g j c hj1 hcp
        | repetition e l u =>
          have hred : registerE (Nat.succ f) h i p r g =
              registerE f (h.setElem i
                (ElemCell.mk cell.data (some p) r (some g))) e
                (PyParent.elem i) r g := by
            conv_lhs => rw [registerE]
            simp [hc, hp, hdata]
          rw [hred]
          exact registerE_keeps f _ e (PyParent.elem i) r g j c hj1 hcp
        | literalString s cs =>
          have hred : (registerE (Nat.succ f) h i p r g).2 =
              h.setElem i (ElemCell.mk cell.data (some p) r (some g)) := by
            conv_lhs => rw [registerE]
            simp [hc, hp, hdata]
          rw [hred]
          exact hj1
        | literalRange a b =>
          have hred : (registerE (Nat.succ f) h i p r g).2 =
              h.setElem i (ElemCell.mk cell.data (some p) r (some g)) := by
            conv_lhs => rw [registerE]
            simp [hc, hp, hdata]
          rw [hred]
          exact hj1
        | ruleCall cn =>
          rcases hch : containsH f (h.setElem i
              (ElemCell.mk cell.data (some p) r (some g))) g cn with ⟨res, h2⟩
          have hh2 : h2 = h.setElem i
              (ElemCell.mk cell.data (some p) r (some g)) := by
            have := containsH_heap f (h.setElem i
              (ElemCell.mk cell.data (some p) r (some g))) g cn
            rw [hch] at this
            exact this
          have hred : (registerE (Nat.succ f) h i p r g).2 =
              h.setElem i (ElemCell.mk cell.data (some p) r (some g)) := by
            conv_lhs => rw [registerE]
            rw [hh2, hdata] at hch
            cases res with
            | ok b => cases b <;> simp [hc, hp, hdata, hch]
            | error er => simp [hc, hp, hdata, hch]
          rw [hred]
          exact hj1
/-- registerE_keeps over a child list. -/
theorem registerList_keeps (f : Nat) (h : Heap) (es : List ElemId)
    (pid : ElemId) (r : String) (g : GrammarId) (j : ElemId) (c : ElemCell)
    (hj : h.elem j = some c) (hcp : c.parent.isSome = true) :
    ((registerList f h es pid r g).2).elem j = some c := by
  cases es with
  | nil => cases f <;> exact hj
  | cons e rest =>
    cases f with
    | zero => exact hj
    | succ f =>
      rcases hre : registerE f h e (PyParent.elem pid) r g with ⟨res, hm⟩
      have ih := registerE_keeps f h e (PyParent.elem pid) r g j c hj hcp
      rw [hre] at ih
      cases res with
      | ok u =>
        have hred : registerList (Nat.succ f) h (e :: rest) pid r g =
            registerList f hm rest pid r g := by
          conv_lhs => rw [registerList]
          cases u
          simp [hre]
        rw [hred]
        exact registerList_keeps f hm rest pid r g j c ih hcp
      | error er =>
        have hred : (registerList (Nat.succ f) h (e :: rest) pid r g).2 = hm := by
          conv_lhs => rw [registerList]
          simp [hre]
        rw [hred]
        exact ih
end

/-- Registering an already-registered element raises the ValueError
whose message names the existing registration location, and returns the
heap exactly as it was. -/
theorem registerE_already (f : Nat) (h : Heap) (i : ElemId) (p : PyParent)
    (r : String) (g : GrammarId) (c : ElemCell) (hc : h.elem i = some c)
    (hp : c.parent.isSome = true) :
    registerE (Nat.succ f) h i p r g =
      (Except.error (PyErr.valueError
        (alreadyMsg h c.data p r g c.parent c.rule c.grammar)), h) := by
  cases hpp : c.parent with
  | none =>
    rw [hpp] at hp
    exact Bool.noConfusion hp
  | some q =>
    conv_lhs => rw [registerE]
    simp [hc, hpp]

/-- A successful register finds the root unregistered and leaves it
with parent, rule and grammar set to the registering values. -/
theorem registerE_sets_root (f : Nat) (h : Heap) (i : ElemId) (p : PyParent)
    (r : String) (g : GrammarId) (u : Unit) (h' : Heap)
    (heq : registerE f h i p r g = (Except.ok u, h')) :
    ∃ cell, h.elem i = some cell ∧ cell.parent = none ∧
      h'.elem i = some (ElemCell.mk cell.data (some p) r (some g)) := by
  cases f with
  | zero => exact absurd (congrArg Prod.fst heq) (by simp [registerE])
  | succ f =>
    cases hc : h.elem i with
    | none => exact absurd (congrArg Prod.fst heq) (by simp [registerE, hc])
    | some cell =>
      cases hp : cell.parent with
      | some q => exact absurd (congrArg Prod.fst heq) (by simp [registerE, hc, hp])
      | none =>
        refine ⟨cell, rfl, hp, ?_⟩
        cases hdata : cell.data with
        | alternation es =>
          have hself : (h.setElem i
              (ElemCell.mk (ElemData.alternation es) (some p) r (some g))).elem i =
              some (ElemCell.mk (ElemData.alternation es) (some p) r (some g)) :=
            Heap.elem_setElem_self h i cell _ hc
          have hred : registerE (Nat.succ f) h i p r g =
              registerList f (h.setElem i
                (ElemCell.mk (ElemData.alternation es) (some p) r (some g)))
                es i r g := by
            conv_lhs => rw [registerE]
            simp [hc, hp, hdata]
          rw [hred] at heq
          have hk := registerList_keeps f _ es i r g i _ hself rfl
          rw [heq] at hk
          exact hk
        | concatenation es =>
          have hself : (h.setElem i
              (ElemCell.mk (ElemData.concatenation es) (some p) r (some g))).elem i =
              some (ElemCell.mk (ElemData.concatenation es) (some p) r (some g)) :=
            Heap.elem_setElem_self h i cell _ hc
          have hred : registerE (Nat.succ f) h i p r g =
              registerList f (h.setElem i
                (ElemCell.mk (ElemData.concatenation es) (some p) r (some g)))
                es i r g := by
            conv_lhs => rw [registerE]
            simp [hc, hp, hdata]
          rw [hred] at heq
          have hk := registerList_keeps f _ es i r g i _ hself rfl
          rw [heq] at hk
          exact hk
        | repetition e l up =>
          have hself : (h.setElem i
              (ElemCell.mk (ElemData.repetition e l up) (some p) r (some g))).elem i =
              some (ElemCell.mk (ElemData.repetition e l up) (some p) r (some g)) :=
            Heap.elem_setElem_self h i cell _ hc
          have hred : registerE (Nat.succ f) h i p r g =
              registerE f (h.setElem i
                (ElemCell.mk (ElemData.repetition e l up) (some p) r (some g)))
                e (PyParent.elem i) r g := by
            conv_lhs => rw [registerE]
            simp [hc, hp, hdata]
          rw [hred] at heq
          have hk := registerE_keeps f _ e (PyParent.elem i) r g i _ hself rfl
          rw [heq] at hk
          exact hk
        | literalString s cs =>
          have hself : (h.setElem i
              (ElemCell.mk (ElemData.literalString s cs) (some p) r (some g))).elem i =
              some (ElemCell.mk (ElemData.literalString s cs) (some p) r (some g)) :=
            Heap.elem_setElem_self h i cell _ hc
          have hred : registerE (Nat.succ f) h i p r g = (Except.ok (),
              h.setElem i
                (ElemCell.mk (ElemData.literalString s cs) (some p) r (some g))) := by
            conv_lhs => rw [registerE]
            simp [hc, hp, hdata]
          rw [hred] at heq
          rw [← ((Prod.mk.injEq _ _ _ _).mp heq).2]
          exact hself
        | literalRange a b =>
          have hself : (h.setElem i
              (ElemCell.mk (ElemData.literalRange a b) (some p) r (some g))).elem i =
              some (ElemCell.mk (ElemData.literalRange a b) (some p) r (some g)) :=
            Heap.elem_setElem_self h i cell _ hc
          have hred : registerE (Nat.succ f) h i p r g = (Except.ok (),
              h.setElem i
                (ElemCell.mk (ElemData.literalRange a b) (some p) r (some g))) := by
            conv_lhs => rw [registerE]
            simp [hc, hp, hdata]
          rw [hred] at heq
          rw [← ((Prod.mk.injEq _ _ _ _).mp heq).2]
          exact hself
        | ruleCall cn =>
          have hself : (h.setElem i
              (ElemCell.mk (ElemData.ruleCall cn) (some p) r (some g))).elem i =
              some (ElemCell.mk (ElemData.ruleCall cn) (some p) r (some g)) :=
            Heap.elem_setElem_self h i cell _ hc
          rcases hch : containsH f (h.setElem i
              (ElemCell.mk (ElemData.ruleCall cn) (some p) r (some g))) g cn
            with ⟨res, h2⟩
          have hh2 : h2 = h.setElem i
              (ElemCell.mk (ElemData.ruleCall cn) (some p) r (some g)) := by
            have := containsH_heap f (h.setElem i
              (ElemCell.mk (ElemData.ruleCall cn) (some p) r (some g))) g cn
            rw [hch] at this
            exact this
          rw [hh2] at hch
          cases res with
          | ok b =>
            cases b with
            | true =>
              have hred : registerE (Nat.succ f) h i p r g = (Except.ok (),
                  h.setElem i
                    (ElemCell.mk (ElemData.ruleCall cn) (some p) r (some g))) := by
                conv_lhs => rw [registerE]
                simp [hc, hp, hdata, hch]
              rw [hred] at heq
              rw [← ((Prod.mk.injEq _ _ _ _).mp heq).2]
              exact hself
            | false =>
              have hred : (registerE (Nat.succ f) h i p r g).1 =
                  Except.error (PyErr.valueError (callMsg cn
                    (gramNameOf (h.setElem i
                      (ElemCell.mk (ElemData.ruleCall cn) (some p) r (some g)))
                      g))) := by
                conv_lhs => rw [registerE]
                simp [hc, hp, hdata, hch]
              rw [heq] at hred
              exact absurd hred (by simp)
          | error er =>
            have hred : (registerE (Nat.succ f) h i p r g).1 =
                Except.error er := by
              conv_lhs => rw [registerE]
              simp [hc, hp, hdata, hch]
            rw [heq] at hred
            exact absurd hred (by simp)

/-- Reachability depends only on the cells' structural data. -/
theorem ReachesE_congr (h h2 : Heap)
    (hd : ∀ j, (h2.elem j).map ElemCell.data = (h.elem j).map ElemCell.data)
    (a b : ElemId) (hr : ReachesE h a b) : ReachesE h2 a b := by
  induction hr with
  | refl => exact ReachesE.refl _
  | step j k c hj hk hij ih =>
    have hdj := hd j
    rw [hj] at hdj
    cases hc2 : h2.elem j with
    | none =>
      rw [hc2] at hdj
      exact absurd hdj (by simp)
    | some c2 =>
      rw [hc2] at hdj
      have hdata : c2.data = c.data := by simpa using hdj
      exact ReachesE.step _ j k c2 hc2 (by rw [hdata]; exact hk) ih

/-- A reachability path either stays at its start or proceeds through
some child of the start's cell. -/
theorem ReachesE_front (h : Heap) (i j : ElemId) (hr : ReachesE h i j) :
    i = j ∨ ∃ k c, h.elem i = some c ∧ k ∈ childIds c.data ∧ ReachesE h k j := by
  induction hr with
  | refl => exact Or.inl rfl
  | step j' k c hj hk hij ih =>
    rcases ih with heq | ⟨k0, c0, hc0, hk0, hr0⟩
    · subst heq
      exact Or.inr ⟨k, c, hj, hk, ReachesE.refl k⟩
    · exact Or.inr ⟨k0, c0, hc0, hk0, ReachesE.step k0 j' k c hj hk hr0⟩

mutual
/-- After a successful register, every element reachable from the root
is registered: parent set, rule and grammar equal to the registering
values. -/
theorem registerE_reach (f : Nat) (h : Heap) (i : ElemId) (p : PyParent)
    (r : String) (g : GrammarId) (u : Unit) (h' : Heap)
    (heq : registerE f h i p r g = (Except.ok u, h')) (j : ElemId)
    (hr : ReachesE h i j) :
    ∃ c, h'.elem j = some c ∧ c.parent.isSome = true ∧ c.rule = r ∧
      c.grammar = some g := by
  cases f with
  | zero => exact absurd (congrArg Prod.fst heq) (by simp [registerE])
  | succ f =>
    cases hc : h.elem i with
    | none => exact absurd (congrArg Prod.fst heq) (by simp [registerE, hc])
    | some cell =>
      cases hp : cell.parent with
      | some q => exact absurd (congrArg Prod.fst heq) (by simp [registerE, hc, hp])
      | none =>
        rcases ReachesE_front h i j hr with hij | ⟨k, c0, hc0, hk, hrkj⟩
        · subst hij
          obtain ⟨cell2, hc2, hp2, hroot⟩ :=
            registerE_sets_root (Nat.succ f) h i p r g u h' heq
          exact ⟨_, hroot, rfl, rfl, rfl⟩
        · have hcc : c0 = cell := Option.some.inj (hc0.symm.trans hc)
          subst hcc
          cases hdata : c0.data with
          | alternation es =>
            rw [hdata] at hk
            simp only [childIds] at hk
            have hd : ∀ j0, ((h.setElem i
                (ElemCell.mk (ElemData.alternation es) (some p) r (some g))).elem
                  j0).map ElemCell.data = (h.elem j0).map ElemCell.data :=
              fun j0 => hdata ▸ setElem_data_preserved h i c0 hc (some p) r
                (some g) j0
            have hred : registerE (Nat.succ f) h i p r g =
                registerList f (h.setElem i
                  (ElemCell.mk (ElemData.alternation es) (some p) r (some g)))
                  es i r g := by
              conv_lhs => rw [registerE]
              simp [hc, hp, hdata]
            rw [hred] at heq
            exact registerList_reach f _ es i r g u h' heq k hk j
              (ReachesE_congr h _ hd k j hrkj)
          | concatenation es =>
            rw [hdata] at hk
            simp only [childIds] at hk
            have hd : ∀ j0, ((h.setElem i
                (ElemCell.mk (ElemData.concatenation es) (some p) r (some g))).elem
                  j0).map ElemCell.data = (h.elem j0).map ElemCell.data :=
              fun j0 => hdata ▸ setElem_data_preserved h i c0 hc (some p) r
                (some g) j0
            have hred : registerE (Nat.succ f) h i p r g =
                registerList f (h.setElem i
                  (ElemCell.mk (ElemData.concatenation es) (some p) r (some g)))
                  es i r g := by
              conv_lhs => rw [registerE]
              simp [hc, hp, hdata]
            rw [hred] at heq
            exact registerList_reach f _ es i r g u h' heq k hk j
              (ReachesE_congr h _ hd k j hrkj)
          | repetition e l up =>
            rw [hdata] at hk
            simp only [childIds, List.mem_singleton] at hk
            subst hk
            have hd : ∀ j0, ((h.setElem i
                (ElemCell.mk (ElemData.repetition k l up) (some p) r (some g))).elem
                  j0).map ElemCell.data = (h.elem j0).map ElemCell.data :=
              fun j0 => hdata ▸ setElem_data_preserved h i c0 hc (some p) r
                (some g) j0
            have hred : registerE (Nat.succ f) h i p r g =
                registerE f (h.setElem i
                  (ElemCell.mk (ElemData.repetition k l up) (some p) r (some g)))
                  k (PyParent.elem i) r g := by
              conv_lhs => rw [registerE]
              simp [hc, hp, hdata]
            rw [hred] at heq
            exact registerE_reach f _ k (PyParent.elem i) r g u h' heq j
              (ReachesE_congr h _ hd k j hrkj)
          | literalString s cs =>
            rw [hdata] at hk
            simp [childIds] at hk
          | literalRange a b =>
            rw [hdata] at hk
            simp [childIds] at hk
          | ruleCall cn =>
            rw [hdata] at hk
            simp [childIds] at hk
/-- registerE_reach over a child list. -/
theorem registerList_reach (f : Nat) (h : Heap) (es : List ElemId)
    (pid : ElemId) (r : String) (g : GrammarId) (u : Unit) (h' : Heap)
    (heq : registerList f h es pid r g = (Except.ok u, h'))
    (e : ElemId) (he : e ∈ es) (j : ElemId) (hr : ReachesE h e j) :
    ∃ c, h'.elem j = some c ∧ c.parent.isSome = true ∧ c.rule = r ∧
      c.grammar = some g := by
  cases es with
  | nil => exact absurd he (List.not_mem_nil e)
  | cons e0 rest =>
    cases f with
    | zero => exact absurd (congrArg Prod.fst heq) (by simp [registerList])
    | succ f =>
      rcases hre : registerE f h e0 (PyParent.elem pid) r g with ⟨res, hm⟩
      cases res with
      | error er =>
        have hcontra : (registerList (Nat.succ f) h (e0 :: rest) pid r g).1 =
            Except.error er := by
          conv_lhs => rw [registerList]
          simp [hre]
        rw [heq] at hcontra
        exact absurd hcontra (by simp)
      | ok u0 =>
        cases u0
        have hred : registerList (Nat.succ f) h (e0 :: rest) pid r g =
            registerList f hm rest pid r g := by
          conv_lhs => rw [registerList]
          simp [hre]
        rw [hred] at heq
        rcases List.mem_cons.mp he with hee | hrest
        · subst hee
          obtain ⟨c, hcj, hps, hrr, hgg⟩ :=
            registerE_reach f h e (PyParent.elem pid) r g () hm hre j hr
          have hkeep := registerList_keeps f hm rest pid r g j c hcj hps
          rw [heq] at hkeep
          exact ⟨c, hkeep, hps, hrr, hgg⟩
        · obtain ⟨hd1, _⟩ := registerE_data f h e0 (PyParent.elem pid) r g
          rw [hre] at hd1
          exact registerList_reach f hm rest pid r g u h' heq e hrest j
            (ReachesE_congr h hm hd1 e j hr)
end

/-- Transport of a parent-child edge under data preservation. -/
theorem edge_congr (h h2 : Heap)
    (hd : ∀ j, (h2.elem j).map ElemCell.data = (h.elem j).map ElemCell.data)
    (pj j : ElemId) (cpj : ElemCell) (hc : h.elem pj = some cpj)
    (hj : j ∈ childIds cpj.data) :
    ∃ cpj2, h2.elem pj = some cpj2 ∧ j ∈ childIds cpj2.data := by
  have hdp := hd pj
  rw [hc] at hdp
  cases hc2 : h2.elem pj with
  | none =>
    rw [hc2] at hdp
    exact absurd hdp (by simp)
  | some cpj2 =>
    rw [hc2] at hdp
    have hdata : cpj2.data = cpj.data := by simpa using hdp
    exact ⟨cpj2, rfl, by rw [hdata]; exact hj⟩

mutual
/-- After a successful register, the parent field of every child of
any element reachable from the root is exactly its enclosing element:
Alternation, Concatenation and Repetition register each child with
themselves as the parent argument. -/
theorem registerE_parent (f : Nat) (h : Heap) (i : ElemId) (p : PyParent)
    (r : String) (g : GrammarId) (u : Unit) (h' : Heap)
    (heq : registerE f h i p r g = (Except.ok u, h'))
    (pj j : ElemId) (hr : ReachesE h i pj) (cpj : ElemCell)
    (hcpj : h.elem pj = some cpj) (hj : j ∈ childIds cpj.data) :
    ∃ c, h'.elem j = some c ∧ c.parent = some (PyParent.elem pj) ∧
      c.rule = r ∧ c.grammar = some g := by
  cases f with
  | zero => exact absurd (congrArg Prod.fst heq) (by simp [registerE])
  | succ f =>
    cases hc : h.elem i with
    | none => exact absurd (congrArg Prod.fst heq) (by simp [registerE, hc])
    | some cell =>
      cases hp : cell.parent with
      | some q => exact absurd (congrArg Prod.fst heq) (by simp [registerE, hc, hp])
      | none =>
        rcases ReachesE_front h i pj hr with hij | ⟨k, c0, hc0, hk, hrkpj⟩
        · subst hij
          have hcc : cpj = cell := Option.some.inj (hcpj.symm.trans hc)
          subst hcc
          cases hdata : cpj.data with
          | alternation es =>
            rw [hdata] at hj
            simp only [childIds] at hj
            have hred : registerE (Nat.succ f) h i p r g =
                registerList f (h.setElem i
                  (ElemCell.mk (ElemData.alternation es) (some p) r (some g)))
                  es i r g := by
              conv_lhs => rw [registerE]
              simp [hc, hp, hdata]
            rw [hred] at heq
            exact (registerList_parent f _ es i r g u h' heq j hj).1
          | concatenation es =>
            rw [hdata] at hj
            simp only [childIds] at hj
            have hred : registerE (Nat.succ f) h i p r g =
                registerList f (h.setElem i
                  (ElemCell.mk (ElemData.concatenation es) (some p) r (some g)))
                  es i r g := by
              conv_lhs => rw [registerE]
              simp [hc, hp, hdata]
            rw [hred] at heq
            exact (registerList_parent f _ es i r g u h' heq j hj).1
          | repetition e l up =>
            rw [hdata] at hj
            simp only [childIds, List.mem_singleton] at hj
            subst hj
            have hred : registerE (Nat.succ f) h i p r g =
                registerE f (h.setElem i
                  (ElemCell.mk (ElemData.repetition j l up) (some p) r (some g)))
                  j (PyParent.elem i) r g := by
              conv_lhs => rw [registerE]
              simp [hc, hp, hdata]
            rw [hred] at heq
            obtain ⟨cell2, hcell2, hpn2, hroot2⟩ :=
              registerE_sets_root f _ j (PyParent.elem i) r g u h' heq
            exact ⟨_, hroot2, rfl, rfl, rfl⟩
          | literalString s cs =>
            rw [hdata] at hj
            simp [childIds] at hj
          | literalRange a b =>
            rw [hdata] at hj
            simp [childIds] at hj
          | ruleCall cn =>
            rw [hdata] at hj
            simp [childIds] at hj
        · have hcc : c0 = cell := Option.some.inj (hc0.symm.trans hc)
          subst hcc
          cases hdata : c0.data with
          | alternation es =>
            rw [hdata] at hk
            simp only [childIds] at hk
            have hd : ∀ j0, ((h.setElem i
                (ElemCell.mk (ElemData.alternation es) (some p) r (some g))).elem
                  j0).map ElemCell.data = (h.elem j0).map ElemCell.data :=
              fun j0 => hdata ▸ setElem_data_preserved h i c0 hc (some p) r
                (some g) j0
            have hred : registerE (Nat.succ f) h i p r g =
                registerList f (h.setElem i
                  (ElemCell.mk (ElemData.alternation es) (some p) r (some g)))
                  es i r g := by
              conv_lhs => rw [registerE]
              simp [hc, hp, hdata]
            rw [hred] at heq
            obtain ⟨cpj2, hcpj2, hj2⟩ := edge_congr h _ hd pj j cpj hcpj hj
            exact (registerList_parent f _ es i r g u h' heq k hk).2 pj j cpj2
              (ReachesE_congr h _ hd k pj hrkpj) hcpj2 hj2
          | concatenation es =>
            rw [hdata] at hk
            simp only [childIds] at hk
            have hd : ∀ j0, ((h.setElem i
                (ElemCell.mk (ElemData.concatenation es) (some p) r (some g))).elem
                  j0).map ElemCell.data = (h.elem j0).map ElemCell.data :=
              fun j0 => hdata ▸ setElem_data_preserved h i c0 hc (some p) r
                (some g) j0
            have hred : registerE (Nat.succ f) h i p r g =
                registerList f (h.setElem i
                  (ElemCell.mk (ElemData.concatenation es) (some p) r (some g)))
                  es i r g := by
              conv_lhs => rw [registerE]
              simp [hc, hp, hdata]
            rw [hred] at heq
            obtain ⟨cpj2, hcpj2, hj2⟩ := edge_congr h _ hd pj j cpj hcpj hj
            exact (registerList_parent f _ es i r g u h' heq k hk).2 pj j cpj2
              (ReachesE_congr h _ hd k pj hrkpj) hcpj2 hj2
          | repetition e l up =>
            rw [hdata] at hk
            simp only [childIds, List.mem_singleton] at hk
            subst hk
            have hd : ∀ j0, ((h.setElem i
                (ElemCell.mk (ElemData.repetition k l up) (some p) r (some g))).elem
                  j0).map ElemCell.data = (h.elem j0).map ElemCell.data :=
              fun j0 => hdata ▸ setElem_data_preserved h i c0 hc (some p) r
                (some g) j0
            have hred : registerE (Nat.succ f) h i p r g =
                registerE f (h.setElem i
                  (ElemCell.mk (ElemData.repetition k l up) (some p) r (some g)))
                  k (PyParent.elem i) r g := by
              conv_lhs => rw [registerE]
              simp [hc, hp, hdata]
            rw [hred] at heq
            obtain ⟨cpj2, hcpj2, hj2⟩ := edge_congr h _ hd pj j cpj hcpj hj
            exact registerE_parent f _ k (PyParent.elem i) r g u h' heq pj j
              (ReachesE_congr h _ hd k pj hrkpj) cpj2 hcpj2 hj2
          | literalString s cs =>
            rw [hdata] at hk
            simp [childIds] at hk
          | literalRange a b =>
            rw [hdata] at hk
            simp [childIds] at hk
          | ruleCall cn =>
            rw [hdata] at hk
            simp [childIds] at hk
/-- registerE_parent over a child list: each list element ends with the
enclosing element as parent, and every deeper edge inside a list
element's tree ends with its own enclosing element as parent. -/
theorem registerList_parent (f : Nat) (h : Heap) (es : List ElemId)
    (pid : ElemId) (r : String) (g : GrammarId) (u : Unit) (h' : Heap)
    (heq : registerList f h es pid r g = (Except.ok u, h'))
    (e : ElemId) (he : e ∈ es) :
    (∃ c, h'.elem e = some c ∧ c.parent = some (PyParent.elem pid) ∧
      c.rule = r ∧ c.grammar = some g) ∧
    (∀ pj j cpj, ReachesE h e pj → h.elem pj = some cpj →
      j ∈ childIds cpj.data →
      ∃ c, h'.elem j = some c ∧ c.parent = some (PyParent.elem pj) ∧
        c.rule = r ∧ c.grammar = some g) := by
  cases es with
  | nil => exact absurd he (List.not_mem_nil e)
  | cons e0 rest =>
    cases f with
    | zero => exact absurd (congrArg Prod.fst heq) (by simp [registerList])
    | succ f =>
      rcases hre : registerE f h e0 (PyParent.elem pid) r g with ⟨res, hm⟩
      cases res with
      | error er =>
        have hcontra : (registerList (Nat.succ f) h (e0 :: rest) pid r g).1 =
            Except.error er := by
          conv_lhs => rw [registerList]
          simp [hre]
        rw [heq] at hcontra
        exact absurd hcontra (by simp)
      | ok u0 =>
        cases u0
        have hred : registerList (Nat.succ f) h (e0 :: rest) pid r g =
            registerList f hm rest pid r g := by
          conv_lhs => rw [registerList]
          simp [hre]
        rw [hred] at heq
        rcases List.mem_cons.mp he with hee | hrest
        · subst hee
          constructor
          · obtain ⟨cell, hcell, hpn, hroot⟩ :=
              registerE_sets_root f h e (PyParent.elem pid) r g () hm hre
            have hkeep := registerList_keeps f hm rest pid r g e _ hroot rfl
            rw [heq] at hkeep
            exact ⟨_, hkeep, rfl, rfl, rfl⟩
          · intro pj j cpj hr hcpj hj
            obtain ⟨c, hcj, hpar, hrr, hgg⟩ :=
              registerE_parent f h e (PyParent.elem pid) r g () hm hre pj j hr
                cpj hcpj hj
            have hkeep := registerList_keeps f hm rest pid r g j c hcj
              (by rw [hpar]; rfl)
            rw [heq] at hkeep
            exact ⟨c, hkeep, hpar, hrr, hgg⟩
        · obtain ⟨hd1, _⟩ := registerE_data f h e0 (PyParent.elem pid) r g
          rw [hre] at hd1
          constructor
          · exact (registerList_parent f hm rest pid r g u h' heq e hrest).1
          · intro pj j cpj hr hcpj hj
            obtain ⟨cpj2, hcpj2, hj2⟩ := edge_congr h hm hd1 pj j cpj hcpj hj
            exact (registerList_parent f hm rest pid r g u h' heq e hrest).2
              pj j cpj2 (ReachesE_congr h hm hd1 e pj hr) hcpj2 hj2
end

/-- The registration loop of __init__ never writes to a cell whose
parent is already set. -/
theorem initRulesH_keeps (f : Nat) (h : Heap) (rules : List (String × ElemId))
    (gid : GrammarId) (j : ElemId) (c : ElemCell) (hj : h.elem j = some c)
    (hcp : c.parent.isSome = true) :
    ((initRulesH f h rules gid).2).elem j = some c := by
  induction rules generalizing h with
  | nil => exact hj
  | cons p rest ih =>
    obtain ⟨r0, rhs0⟩ := p
    rcases hre : registerE f h rhs0 (PyParent.grammar gid) r0 gid with ⟨res, hm⟩
    have hk := registerE_keeps f h rhs0 (PyParent.grammar gid) r0 gid j c hj hcp
    rw [hre] at hk
    cases res with
    | ok u =>
      cases u
      have hred : initRulesH f h ((r0, rhs0) :: rest) gid =
          initRulesH f hm rest gid := by
        simp [initRulesH, hre]
      rw [hred]
      exact ih hm hk
    | error er =>
      have hred : (initRulesH f h ((r0, rhs0) :: rest) gid).2 = hm := by
        simp [initRulesH, hre]
      rw [hred]
      exact hk

/-- The registration loop of __init__ preserves every cell's data, the
domain, and the grammar store. -/
theorem initRulesH_data (f : Nat) (h : Heap) (rules : List (String × ElemId))
    (gid : GrammarId) :
    (∀ j, (((initRulesH f h rules gid).2).elem j).map ElemCell.data =
      (h.elem j).map ElemCell.data) ∧
    ((initRulesH f h rules gid).2).grammars = h.grammars := by
  induction rules generalizing h with
  | nil => exact ⟨fun j => rfl, rfl⟩
  | cons p rest ih =>
    obtain ⟨r0, rhs0⟩ := p
    rcases hre : registerE f h rhs0 (PyParent.grammar gid) r0 gid with ⟨res, hm⟩
    obtain ⟨hd1, hg1⟩ := registerE_data f h rhs0 (PyParent.grammar gid) r0 gid
    rw [hre] at hd1 hg1
    cases res with
    | ok u =>
      cases u
      have hred : initRulesH f h ((r0, rhs0) :: rest) gid =
          initRulesH f hm rest gid := by
        simp [initRulesH, hre]
      rw [hred]
      obtain ⟨jd, jg⟩ := ih hm
      exact ⟨fun j => (jd j).trans (hd1 j), jg.trans hg1⟩
    | error er =>
      have hred : (initRulesH f h ((r0, rhs0) :: rest) gid).2 = hm := by
        simp [initRulesH, hre]
      rw [hred]
      exact ⟨hd1, hg1⟩

/-- After a successful registration loop, each rule's root carries the
grammar as parent and every reachable element of the rule's tree is
registered with that rule's name and the grammar. -/
theorem initRulesH_registers (f : Nat) (h : Heap)
    (rules : List (String × ElemId)) (gid : GrammarId) (u : Unit) (h' : Heap)
    (heq : initRulesH f h rules gid = (Except.ok u, h')) (r : String)
    (root : ElemId) (hmem : (r, root) ∈ rules) :
    (∃ c, h'.elem root = some c ∧ c.parent = some (PyParent.grammar gid) ∧
      c.rule = r ∧ c.grammar = some gid) ∧
    (∀ j, ReachesE h root j →
      ∃ c, h'.elem j = some c ∧ c.parent.isSome = true ∧ c.rule = r ∧
        c.grammar = some gid) := by
  induction rules generalizing h with
  | nil => exact absurd hmem (List.not_mem_nil _)
  | cons p rest ih =>
    obtain ⟨r0, rhs0⟩ := p
    rcases hre : registerE f h rhs0 (PyParent.grammar gid) r0 gid with ⟨res, hm⟩
    cases res with
    | error er =>
      have hcontra : (initRulesH f h ((r0, rhs0) :: rest) gid).1 =
          Except.error er := by
        simp [initRulesH, hre]
      rw [heq] at hcontra
      exact absurd hcontra (by simp)
    | ok u0 =>
      cases u0
      have hred : initRulesH f h ((r0, rhs0) :: rest) gid =
          initRulesH f hm rest gid := by
        simp [initRulesH, hre]
      rw [hred] at heq
      rcases List.mem_cons.mp hmem with hpe | hrest
      · obtain ⟨hr1, hr2⟩ := Prod.mk.injEq r root r0 rhs0 ▸ hpe
        subst hr1
        subst hr2
        constructor
        · obtain ⟨cell, hcell, hpn, hroot⟩ :=
            registerE_sets_root f h root (PyParent.grammar gid) r gid () hm hre
          have hkeep := initRulesH_keeps f hm rest gid root _ hroot rfl
          rw [heq] at hkeep
          exact ⟨_, hkeep, rfl, rfl, rfl⟩
        · intro j hr
          obtain ⟨c, hcj, hps, hrr, hgg⟩ :=
            registerE_reach f h root (PyParent.grammar gid) r gid () hm hre j hr
          have hkeep := initRulesH_keeps f hm rest gid j c hcj hps
          rw [heq] at hkeep
          exact ⟨c, hkeep, hps, hrr, hgg⟩
      · obtain ⟨hd1, _⟩ := registerE_data f h rhs0 (PyParent.grammar gid) r0 gid
        rw [hre] at hd1
        obtain ⟨ih1, ih2⟩ := ih hm heq hrest
        exact ⟨ih1, fun j hr =>
          ih2 j (ReachesE_congr h hm hd1 root j hr)⟩

/-- After a successful registration loop, every parent-child edge
inside a rule's tree ends with the enclosing element as the child's
parent field. -/
theorem initRulesH_parent (f : Nat) (h : Heap)
    (rules : List (String × ElemId)) (gid : GrammarId) (u : Unit) (h' : Heap)
    (heq : initRulesH f h rules gid = (Except.ok u, h')) (r : String)
    (root : ElemId) (hmem : (r, root) ∈ rules) :
    ∀ pj j cpj, ReachesE h root pj → h.elem pj = some cpj →
      j ∈ childIds cpj.data →
      ∃ c, h'.elem j = some c ∧ c.parent = some (PyParent.elem pj) ∧
        c.rule = r ∧ c.grammar = some gid := by
  induction rules generalizing h with
  | nil => exact absurd hmem (List.not_mem_nil _)
  | cons p0 rest ih =>
    obtain ⟨r0, rhs0⟩ := p0
    rcases hre : registerE f h rhs0 (PyParent.grammar gid) r0 gid with ⟨res, hm⟩
    cases res with
    | error er =>
      have hcontra : (initRulesH f h ((r0, rhs0) :: rest) gid).1 =
          Except.error er := by
        simp [initRulesH, hre]
      rw [heq] at hcontra
      exact absurd hcontra (by simp)
    | ok u0 =>
      cases u0
      have hred : initRulesH f h ((r0, rhs0) :: rest) gid =
          initRulesH f hm rest gid := by
        simp [initRulesH, hre]
      rw [hred] at heq
      rcases List.mem_cons.mp hmem with hpe | hrest
      · obtain ⟨hr1, hr2⟩ := Prod.mk.injEq r root r0 rhs0 ▸ hpe
        subst hr1
        subst hr2
        intro pj j cpj hr hcpj hj
        obtain ⟨c, hcj, hpar, hrr, hgg⟩ :=
          registerE_parent f h root (PyParent.grammar gid) r gid () hm hre pj j
            hr cpj hcpj hj
        have hkeep := initRulesH_keeps f hm rest gid j c hcj (by rw [hpar]; rfl)
        rw [heq] at hkeep
        exact ⟨c, hkeep, hpar, hrr, hgg⟩
      · intro pj j cpj hr hcpj hj
        obtain ⟨hd1, _⟩ := registerE_data f h rhs0 (PyParent.grammar gid) r0 gid
        rw [hre] at hd1
        obtain ⟨cpj2, hcpj2, hj2⟩ := edge_congr h hm hd1 pj j cpj hcpj hj
        exact ih hm heq hrest pj j cpj2
          (ReachesE_congr h hm hd1 root pj hr) hcpj2 hj2

/-! ## Claims C9, C5, C3 -/

/-- C9: after a successful Grammar.__init__, every element reachable in
any rule's tree is registered — the rule's root carries the Grammar
itself as parent, every reachable element has a non-None parent, the
containing rule's name and the constructed grammar, and each child of
any reachable element has exactly that enclosing element as its parent;
and a re-registration attempt on any registered element raises
ValueError and returns the heap exactly unchanged. -/
theorem c9_registration (f : Nat) (h : Heap) (gid : GrammarId) (nm : String)
    (rules : List (String × ElemId)) (imports : List GrammarId) (u : Unit)
    (h' : Heap) (heq : initH f h gid nm rules imports = (Except.ok u, h')) :
    (∀ r root, (r, root) ∈ rules →
      (∃ c, h'.elem root = some c ∧ c.parent = some (PyParent.grammar gid) ∧
        c.rule = r ∧ c.grammar = some gid) ∧
      (∀ j, ReachesE h' root j →
        ∃ c, h'.elem j = some c ∧ c.parent.isSome = true ∧ c.rule = r ∧
          c.grammar = some gid) ∧
      (∀ pj j cpj, ReachesE h' root pj → h'.elem pj = some cpj →
        j ∈ childIds cpj.data →
        ∃ c, h'.elem j = some c ∧ c.parent = some (PyParent.elem pj) ∧
          c.rule = r ∧ c.grammar = some gid)) ∧
    (∀ f2 i p r2 g2 c, h'.elem i = some c → c.parent.isSome = true →
      registerE (Nat.succ f2) h' i p r2 g2 =
        (Except.error (PyErr.valueError
          (alreadyMsg h' c.data p r2 g2 c.parent c.rule c.grammar)), h')) := by
  have heq' : initRulesH f
      (Heap.mk h.elems ((gid, GrammarCell.mk nm rules imports) :: h.grammars))
      rules gid = (Except.ok u, h') := heq
  constructor
  · intro r root hmem
    obtain ⟨hroot, hreach⟩ :=
      initRulesH_registers f _ rules gid u h' heq' r root hmem
    obtain ⟨hd, _⟩ := initRulesH_data f
      (Heap.mk h.elems ((gid, GrammarCell.mk nm rules imports) :: h.grammars))
      rules gid
    rw [heq'] at hd
    refine ⟨hroot, fun j hr => ?_, fun pj j cpj hr hcpj hj => ?_⟩
    · exact hreach j (ReachesE_congr h' _ (fun j0 => (hd j0).symm) root j hr)
    · obtain ⟨cpj0, hcpj0, hj0⟩ :=
        edge_congr h' _ (fun j0 => (hd j0).symm) pj j cpj hcpj hj
      exact initRulesH_parent f _ rules gid u h' heq' r root hmem pj j cpj0
        (ReachesE_congr h' _ (fun j0 => (hd j0).symm) root pj hr) hcpj0 hj0
  · intro f2 i p r2 g2 c hci hcp
    exact registerE_already f2 h' i p r2 g2 c hci hcp

/-- A fresh three-element heap: a literal, a rule call and an
alternation over them, the tree of one rule. -/
def c9heap : Heap :=
  Heap.mk [(0, ElemCell.mk (ElemData.literalString [97] true) none "" none),
    (1, ElemCell.mk (ElemData.ruleCall "A") none "" none),
    (2, ElemCell.mk (ElemData.alternation [0, 1]) none "" none)] []

/-- C9 witness: constructing the one-rule grammar over c9heap succeeds,
leaves the rule's root registered at the grammar, and leaves the root's
first child registered at the root as its enclosing element. -/
theorem c9_witness :
    (∃ c, ((initH 10 c9heap 5 "G" [("A", 2)] []).2).elem 2 = some c ∧
      c.parent = some (PyParent.grammar 5) ∧ c.rule = "A" ∧
      c.grammar = some 5) ∧
    (∃ c, ((initH 10 c9heap 5 "G" [("A", 2)] []).2).elem 0 = some c ∧
      c.parent = some (PyParent.elem 2) ∧ c.rule = "A" ∧
      c.grammar = some 5) := by
  have hA := (c9_registration 10 c9heap 5 "G" [("A", 2)] [] ()
    (initH 10 c9heap 5 "G" [("A", 2)] []).2 rfl).1 "A" 2 (by simp)
  exact ⟨hA.1, hA.2.2 2 0
    (ElemCell.mk (ElemData.alternation [0, 1]) (some (PyParent.grammar 5))
      ("A") (some 5))
    (ReachesE.refl 2) rfl (by simp [childIds])⟩

/-- One fresh literal-string element, shared in the demonstrations. -/
def c5heapShared : Heap :=
  Heap.mk [(0, ElemCell.mk (ElemData.literalString [97] true) none "" none)] []

/-- A fresh literal-string element occurring twice inside one
concatenation. -/
def c5heapTwice : Heap :=
  Heap.mk [(0, ElemCell.mk (ElemData.literalString [97] true) none "" none),
    (1, ElemCell.mk (ElemData.concatenation [0, 0]) none "" none)] []

/-- C5: registering an already-registered element raises the ValueError
whose message embeds the existing registration location and returns the
heap unchanged; consequently construction fails when one element object
occurs in two rules, twice within one rule tree, or in the rules of a
second grammar. -/
theorem c5_duplicate_registration :
    (∀ f h i p r g c, h.elem i = some c → c.parent.isSome = true →
      registerE (Nat.succ f) h i p r g =
        (Except.error (PyErr.valueError
          (alreadyMsg h c.data p r g c.parent c.rule c.grammar)), h)) ∧
    (∃ m, (initH 10 c5heapShared 0 "G" [("A", 0), ("B", 0)] []).1 =
      Except.error (PyErr.valueError m)) ∧
    (∃ m, (initH 10 c5heapTwice 0 "G" [("A", 1)] []).1 =
      Except.error (PyErr.valueError m)) ∧
    ((initH 10 c5heapShared 0 "G" [("A", 0)] []).1 = Except.ok () ∧
      ∃ m, (initH 10 ((initH 10 c5heapShared 0 "G" [("A", 0)] []).2) 1 "H"
        [("B", 0)] []).1 = Except.error (PyErr.valueError m)) :=
  ⟨fun f h i p r g c hc hp => registerE_already f h i p r g c hc hp,
    ⟨_, rfl⟩, ⟨_, rfl⟩, rfl, ⟨_, rfl⟩⟩

/-- A heap whose single element is already registered at rule A of
grammar 0. -/
def c5regHeap : Heap :=
  Heap.mk [(0, ElemCell.mk (ElemData.literalString [97] true)
    (some (PyParent.grammar 0)) "A" (some 0))]
    [(0, GrammarCell.mk "G" [("A", 0)] [])]

/-- C5 witness: a second registration of the registered element of
c5regHeap raises the ValueError naming the existing location and
returns the heap unchanged. -/
theorem c5_witness :
    registerE 1 c5regHeap 0 (PyParent.grammar 0) "B" 0 =
      (Except.error (PyErr.valueError (alreadyMsg c5regHeap
        (ElemData.literalString [97] true) (PyParent.grammar 0) "B" 0
        (some (PyParent.grammar 0)) "A" (some 0))), c5regHeap) :=
  c5_duplicate_registration.1 0 c5regHeap 0 (PyParent.grammar 0) "B" 0
    (ElemCell.mk (ElemData.literalString [97] true)
      (some (PyParent.grammar 0)) "A" (some 0)) rfl rfl

/-- Two distinct objects holding structurally equal literal strings. -/
def c3heap : Heap :=
  Heap.mk [(0, ElemCell.mk (ElemData.literalString [97] true) none "" none),
    (1, ElemCell.mk (ElemData.literalString [97] true) none "" none)] []

/-- C3 counterexample: two structurally equal objects at distinct
identities compare equal under the elements' own __eq__, so they are
not distinguishable by the comparison the elements provide. -/
theorem c3_counterexample :
    (0 : ElemId) ≠ 1 ∧ (pyEqElem 2 c3heap 0 1).1 = Except.ok true :=
  ⟨by decide, rfl⟩

/-- C3 (amended): element __eq__ is strict structural equality, so two
structurally equal but distinct objects compare equal and keying on
__eq__ cannot distinguish them (the classes override __eq__ without
defining __hash__, so in Python the objects are not even hashable); the
stable identity is the object identity itself, which construction and
registration never change — register preserves every object's address
and structural data, mutating only parent, rule and grammar fields. -/
theorem c3_identity_independent_of_structure :
    (∀ f h i p r g j, (((registerE f h i p r g).2).elem j).map ElemCell.data =
      (h.elem j).map ElemCell.data) ∧
    ((pyEqElem 2 c3heap 0 1).1 = Except.ok true ∧ (0 : ElemId) ≠ 1) :=
  ⟨fun f h i p r g j => (registerE_data f h i p r g).1 j, rfl, by decide⟩

/-! ## Lemmas: the remaining read operations do not touch the heap -/

mutual
/-- __iter__ returns the heap unchanged. -/
theorem iterH_heap (f : Nat) (h : Heap) (gid : GrammarId) :
    (iterH f h gid).2 = h := by
  cases f with
  | zero => rfl
  | succ f =>
    cases hg : h.gram gid with
    | none => simp [iterH, hg]
    | some cell =>
      rcases himp : iterImportsH f h cell.gimports with ⟨res, h'⟩
      have hh : h' = h := by
        have := iterImportsH_heap f h cell.gimports
        rw [himp] at this
        exact this
      rw [hh] at himp
      cases res with
      | ok ns => simp [iterH, hg, himp]
      | error er => simp [iterH, hg, himp]
/-- iterH_heap over the import list. -/
theorem iterImportsH_heap (f : Nat) (h : Heap) (gs : List GrammarId) :
    (iterImportsH f h gs).2 = h := by
  cases gs with
  | nil => cases f <;> rfl
  | cons g rest =>
    cases f with
    | zero => rfl
    | succ f =>
      rcases h1 : iterH f h g with ⟨res, h'⟩
      have hh : h' = h := by
        have := iterH_heap f h g
        rw [h1] at this
        exact this
      rw [hh] at h1
      cases res with
      | ok ns =>
        rcases h2 : iterImportsH f h rest with ⟨res2, h2'⟩
        have hh2 : h2' = h := by
          have := iterImportsH_heap f h rest
          rw [h2] at this
          exact this
        rw [hh2] at h2
        cases res2 with
        | ok ms => simp [iterImportsH, h1, h2]
        | error er => simp [iterImportsH, h1, h2]
      | error er => simp [iterImportsH, h1]
end

mutual
/-- __len__ returns the heap unchanged. -/
theorem lenH_heap (f : Nat) (h : Heap) (gid : GrammarId) :
    (lenH f h gid).2 = h := by
  cases f with
  | zero => rfl
  | succ f =>
    cases hg : h.gram gid with
    | none => simp [lenH, hg]
    | some cell =>
      rcases himp : lenImportsH f h cell.gimports with ⟨res, h'⟩
      have hh : h' = h := by
        have := lenImportsH_heap f h cell.gimports
        rw [himp] at this
        exact this
      rw [hh] at himp
      cases res with
      | ok n => simp [lenH, hg, himp]
      | error er => simp [lenH, hg, himp]
/-- lenH_heap over the import list. -/
theorem lenImportsH_heap (f : Nat) (h : Heap) (gs : List GrammarId) :
    (lenImportsH f h gs).2 = h := by
  cases gs with
  | nil => cases f <;> rfl
  | cons g rest =>
    cases f with
    | zero => rfl
    | succ f =>
      rcases h1 : lenH f h g with ⟨res, h'⟩
      have hh : h' = h := by
        have := lenH_heap f h g
        rw [h1] at this
        exact this
      rw [hh] at h1
      cases res with
      | ok n =>
        rcases h2 : lenImportsH f h rest with ⟨res2, h2'⟩
        have hh2 : h2' = h := by
          have := lenImportsH_heap f h rest
          rw [h2] at this
          exact this
        rw [hh2] at h2
        cases res2 with
        | ok m => simp [lenImportsH, h1, h2]
        | error er => simp [lenImportsH, h1, h2]
      | error er => simp [lenImportsH, h1]
end

mutual
/-- Element __eq__ returns the heap unchanged. -/
theorem pyEqElem_heap (f : Nat) (h : Heap) (i j : ElemId) :
    (pyEqElem f h i j).2 = h := by
  cases f with
  | zero => rfl
  | succ f =>
    cases hci : h.elem i with
    | none => simp [pyEqElem, hci]
    | some ci =>
      cases hcj : h.elem j with
      | none => cases ci.data <;> simp [pyEqElem, hci, hcj]
      | some cj =>
        cases hdi : ci.data with
        | alternation es =>
          cases hdj : cj.data with
          | alternation fs =>
            by_cases hlen : es.length = fs.length
            · rcases hql : pyEqList f h es fs with ⟨res, h'⟩
              have hh : h' = h := by
                have := pyEqList_heap f h es fs
                rw [hql] at this
                exact this
              rw [hh] at hql
              cases res with
              | ok b => simp [pyEqElem, hci, hcj, hdi, hdj, hlen, hql]
              | error er => simp [pyEqElem, hci, hcj, hdi, hdj, hlen, hql]
            · simp [pyEqElem, hci, hcj, hdi, hdj, hlen]
          | concatenation fs => simp [pyEqElem, hci, hcj, hdi, hdj]
          | repetition e2 l2 u2 => simp [pyEqElem, hci, hcj, hdi, hdj]
          | literalString s2 b2 => simp [pyEqElem, hci, hcj, hdi, hdj]
          | literalRange a2 b2 => simp [pyEqElem, hci, hcj, hdi, hdj]
          | ruleCall c2 => simp [pyEqElem, hci, hcj, hdi, hdj]
        | concatenation es =>
          cases hdj : cj.data with
          | concatenation fs =>
            by_cases hlen : es.length = fs.length
            · rcases hql : pyEqList f h es fs with ⟨res, h'⟩
              have hh : h' = h := by
                have := pyEqList_heap f h es fs
                rw [hql] at this
                exact this
              rw [hh] at hql
              cases res with
              | ok b => simp [pyEqElem, hci, hcj, hdi, hdj, hlen, hql]
              | error er => simp [pyEqElem, hci, hcj, hdi, hdj, hlen, hql]
            · simp [pyEqElem, hci, hcj, hdi, hdj, hlen]
          | alternation fs => simp [pyEqElem, hci, hcj, hdi, hdj]
          | repetition e2 l2 u2 => simp [pyEqElem, hci, hcj, hdi, hdj]
          | literalString s2 b2 => simp [pyEqElem, hci, hcj, hdi, hdj]
          | literalRange a2 b2 => simp [pyEqElem, hci, hcj, hdi, hdj]
          | ruleCall c2 => simp [pyEqElem, hci, hcj, hdi, hdj]
        | repetition e l u =>
          cases hdj : cj.data with
          | repetition e2 l2 u2 =>
            rcases hqe : pyEqElem f h e e2 with ⟨res, h'⟩
            have hh : h' = h := by
              have := pyEqElem_heap f h e e2
              rw [hqe] at this
              exact this
            rw [hh] at hqe
            cases res with
            | ok b => simp [pyEqElem, hci, hcj, hdi, hdj, hqe]
            | error er => simp [pyEqElem, hci, hcj, hdi, hdj, hqe]
          | alternation fs => simp [pyEqElem, hci, hcj, hdi, hdj]
          | concatenation fs => simp [pyEqElem, hci, hcj, hdi, hdj]
          | literalString s2 b2 => simp [pyEqElem, hci, hcj, hdi, hdj]
          | literalRange a2 b2 => simp [pyEqElem, hci, hcj, hdi, hdj]
          | ruleCall c2 => simp [pyEqElem, hci, hcj, hdi, hdj]
        | literalString s b =>
          cases hdj : cj.data <;> simp [pyEqElem, hci, hcj, hdi, hdj]
        | literalRange a b =>
          cases hdj : cj.data <;> simp [pyEqElem, hci, hcj, hdi, hdj]
        | ruleCall cn =>
          cases hdj : cj.data <;> simp [pyEqElem, hci, hcj, hdi, hdj]
/-- pyEqElem_heap over zipped child lists. -/
theorem pyEqList_heap (f : Nat) (h : Heap) (es fs : List ElemId) :
    (pyEqList f h es fs).2 = h := by
  cases es with
  | nil => cases f <;> cases fs <;> rfl
  | cons e rest =>
    cases fs with
    | nil => cases f <;> rfl
    | cons e2 rest2 =>
      cases f with
      | zero => rfl
      | succ f =>
        rcases hqe : pyEqElem f h e e2 with ⟨res, h'⟩
        have hh : h' = h := by
          have := pyEqElem_heap f h e e2
          rw [hqe] at this
          exact this
        rw [hh] at hqe
        cases res with
        | ok b =>
          cases b with
          | true =>
            rcases hql : pyEqList f h rest rest2 with ⟨res2, h2'⟩
            have hh2 : h2' = h := by
              have := pyEqList_heap f h rest rest2
              rw [hql] at this
              exact this
            rw [hh2] at hql
            cases res2 with
            | ok b2 => simp [pyEqList, hqe, hql]
            | error er => simp [pyEqList, hqe, hql]
          | false => simp [pyEqList, hqe]
        | error er => simp [pyEqList, hqe]
end

mutual
/-- Grammar __eq__ returns the heap unchanged. -/
theorem pyEqGrammar_heap (f : Nat) (h : Heap) (g1 g2 : GrammarId) :
    (pyEqGrammar f h g1 g2).2 = h := by
  cases f with
  | zero => rfl
  | succ f =>
    cases hc1 : h.gram g1 with
    | none => simp [pyEqGrammar, hc1]
    | some c1 =>
      cases hc2 : h.gram g2 with
      | none => simp [pyEqGrammar, hc1, hc2]
      | some c2 =>
        by_cases hn : c1.gname = c2.gname
        · rcases hrq : rulesEqH f h c1.grules c2.grules with ⟨res, h'⟩
          have hh : h' = h := by
            have := rulesEqH_heap f h c1.grules c2.grules
            rw [hrq] at this
            exact this
          rw [hh] at hrq
          cases res with
          | ok b =>
            cases b with
            | true =>
              simpa [pyEqGrammar, hc1, hc2, hn, hrq] using
                importsEqH_heap f h c1.gimports c2.gimports
            | false => simp [pyEqGrammar, hc1, hc2, hn, hrq]
          | error er => simp [pyEqGrammar, hc1, hc2, hn, hrq]
        · simp [pyEqGrammar, hc1, hc2, hn]
/-- Dict equality on the rule mappings returns the heap unchanged. -/
theorem rulesEqH_heap (f : Nat) (h : Heap)
    (rs1 rs2 : List (String × ElemId)) : (rulesEqH f h rs1 rs2).2 = h := by
  cases f with
  | zero => rfl
  | succ f =>
    by_cases hlen : rs1.length = rs2.length
    · simpa [rulesEqH, hlen] using rulesEqGo_heap f h rs1 rs2
    · simp [rulesEqH, hlen]
/-- The key loop of dict equality returns the heap unchanged. -/
theorem rulesEqGo_heap (f : Nat) (h : Heap)
    (rs1 rs2 : List (String × ElemId)) : (rulesEqGo f h rs1 rs2).2 = h := by
  cases rs1 with
  | nil => cases f <;> rfl
  | cons p rest =>
    cases f with
    | zero => rfl
    | succ f =>
      obtain ⟨k, v⟩ := p
      cases hlk : lookupKey rs2 k with
      | none => simp [rulesEqGo, hlk]
      | some v2 =>
        rcases hqe : pyEqElem f h v v2 with ⟨res, h'⟩
        have hh : h' = h := by
          have := pyEqElem_heap f h v v2
          rw [hqe] at this
          exact this
        rw [hh] at hqe
        cases res with
        | ok b =>
          cases b with
          | true =>
            simpa [rulesEqGo, hlk, hqe] using rulesEqGo_heap f h rest rs2
          | false => simp [rulesEqGo, hlk, hqe]
        | error er => simp [rulesEqGo, hlk, hqe]
/-- List equality on the import lists returns the heap unchanged. -/
theorem importsEqH_heap (f : Nat) (h : Heap) (is1 is2 : List GrammarId) :
    (importsEqH f h is1 is2).2 = h := by
  cases f with
  | zero => rfl
  | succ f =>
    by_cases hlen : is1.length = is2.length
    · simpa [importsEqH, hlen] using importsEqGo_heap f h is1 is2
    · simp [importsEqH, hlen]
/-- The element loop of import-list equality returns the heap
unchanged. -/
theorem importsEqGo_heap (f : Nat) (h : Heap) (is1 is2 : List GrammarId) :
    (importsEqGo f h is1 is2).2 = h := by
  cases is1 with
  | nil => cases f <;> cases is2 <;> rfl
  | cons g gs =>
    cases is2 with
    | nil => cases f <;> rfl
    | cons g2 gs2 =>
      cases f with
      | zero => rfl
      | succ f =>
        rcases hqg : pyEqGrammar f h g g2 with ⟨res, h'⟩
        have hh : h' = h := by
          have := pyEqGrammar_heap f h g g2
          rw [hqg] at this
          exact this
        rw [hh] at hqg
        cases res with
        | ok b =>
          cases b with
          | true =>
            simpa [importsEqGo, hqg] using importsEqGo_heap f h gs gs2
          | false => simp [importsEqGo, hqg]
        | error er => simp [importsEqGo, hqg]
end

mutual
/-- Element __str__ returns the heap unchanged. -/
theorem strElemH_heap (f : Nat) (h : Heap) (i : ElemId) (b : Bool) :
    (strElemH f h i b).2 = h := by
  cases f with
  | zero => rfl
  | succ f =>
    cases hc : h.elem i with
    | none => simp [strElemH, hc]
    | some c =>
      cases hd : c.data with
      | alternation es =>
        cases es with
        | nil => simp [strElemH, hc, hd]
        | cons e rest =>
          cases rest with
          | nil =>
            rcases hs : strElemH f h e b with ⟨res, h'⟩
            have hh : h' = h := by
              have := strElemH_heap f h e b
              rw [hs] at this
              exact this
            rw [hh] at hs
            simp [strElemH, hc, hd, hs]
          | cons e2 rest2 =>
            rcases hsc : strChildrenH f h (e :: e2 :: rest2) with ⟨res, h'⟩
            have hh : h' = h := by
              have := strChildrenH_heap f h (e :: e2 :: rest2)
              rw [hsc] at this
              exact this
            rw [hh] at hsc
            cases res with
            | ok parts => simp [strElemH, hc, hd, hsc]
            | error er => simp [strElemH, hc, hd, hsc]
      | concatenation es =>
        cases es with
        | nil => simp [strElemH, hc, hd]
        | cons e rest =>
          cases rest with
          | nil =>
            rcases hs : strElemH f h e b with ⟨res, h'⟩
            have hh : h' = h := by
              have := strElemH_heap f h e b
              rw [hs] at this
              exact this
            rw [hh] at hs
            simp [strElemH, hc, hd, hs]
          | cons e2 rest2 =>
            rcases hsc : strChildrenH f h (e :: e2 :: rest2) with ⟨res, h'⟩
            have hh : h' = h := by
              have := strChildrenH_heap f h (e :: e2 :: rest2)
              rw [hsc] at this
              exact this
            rw [hh] at hsc
            cases res with
            | ok parts => simp [strElemH, hc, hd, hsc]
            | error er => simp [strElemH, hc, hd, hsc]
      | repetition e l u =>
        rcases hsp : strElemH f h e b with ⟨resP, hP⟩
        have hhP : hP = h := by
          have := strElemH_heap f h e b
          rw [hsp] at this
          exact this
        rw [hhP] at hsp
        rcases hst : strElemH f h e true with ⟨resT, hT⟩
        have hhT : hT = h := by
          have := strElemH_heap f h e true
          rw [hst] at this
          exact this
        rw [hhT] at hst
        rcases hsf : strElemH f h e false with ⟨resF, hF⟩
        have hhF : hF = h := by
          have := strElemH_heap f h e false
          rw [hsf] at this
          exact this
        rw [hhF] at hsf
        cases u with
        | some uv =>
          simp only [strElemH, hc, hd]
          by_cases h1 : l = uv
          · rw [if_pos h1]
            by_cases h2 : l = 1
            · rw [if_pos h2, hsp]
            · rw [if_neg h2]
              by_cases h3 : l > 1
              · rw [if_pos h3]
                cases resT with
                | ok s => rw [hst]
                | error er => rw [hst]
              · rw [if_neg h3]
          · rw [if_neg h1]
            by_cases h4 : uv = 1
            · rw [if_pos h4]
              cases resF with
              | ok s => rw [hsf]
              | error er => rw [hsf]
            · rw [if_neg h4]
              cases resT with
              | ok s => rw [hst]
              | error er => rw [hst]
        | none =>
          simp only [strElemH, hc, hd]
          by_cases h5 : l = 0
          · rw [if_pos h5]
            cases resT with
            | ok s => rw [hst]
            | error er => rw [hst]
          · rw [if_neg h5]
            cases resT with
            | ok s => rw [hst]
            | error er => rw [hst]
      | literalString s cs => simp [strElemH, hc, hd]
      | literalRange a b2 => simp [strElemH, hc, hd]
      | ruleCall cn => simp [strElemH, hc, hd]
/-- strElemH_heap over the child list. -/
theorem strChildrenH_heap (f : Nat) (h : Heap) (es : List ElemId) :
    (strChildrenH f h es).2 = h := by
  cases es with
  | nil => cases f <;> rfl
  | cons e rest =>
    cases f with
    | zero => rfl
    | succ f =>
      rcases hs : strElemH f h e true with ⟨res, h'⟩
      have hh : h' = h := by
        have := strElemH_heap f h e true
        rw [hs] at this
        exact this
      rw [hh] at hs
      cases res with
      | ok s =>
        rcases hsc : strChildrenH f h rest with ⟨res2, h2'⟩
        have hh2 : h2' = h := by
          have := strChildrenH_heap f h rest
          rw [hsc] at this
          exact this
        rw [hh2] at hsc
        cases res2 with
        | ok ss => simp [strChildrenH, hs, hsc]
        | error er => simp [strChildrenH, hs, hsc]
      | error er => simp [strChildrenH, hs]
end

mutual
/-- Element __repr__ returns the heap unchanged. -/
theorem reprElemH_heap (f : Nat) (h : Heap) (i : ElemId) (ind : Nat) :
    (reprElemH f h i ind).2 = h := by
  cases f with
  | zero => rfl
  | succ f =>
    cases hc : h.elem i with
    | none => simp [reprElemH, hc]
    | some c =>
      cases hd : c.data with
      | alternation es =>
        rcases hrc : reprChildrenH f h es (ind + 4) true with ⟨res, h'⟩
        have hh : h' = h := by
          have := reprChildrenH_heap f h es (ind + 4) true
          rw [hrc] at this
          exact this
        rw [hh] at hrc
        cases res with
        | ok parts => simp [reprElemH, hc, hd, hrc]
        | error er => simp [reprElemH, hc, hd, hrc]
      | concatenation es =>
        rcases hrc : reprChildrenH f h es (ind + 4) true with ⟨res, h'⟩
        have hh : h' = h := by
          have := reprChildrenH_heap f h es (ind + 4) true
          rw [hrc] at this
          exact this
        rw [hh] at hrc
        cases res with
        | ok parts => simp [reprElemH, hc, hd, hrc]
        | error er => simp [reprElemH, hc, hd, hrc]
      | repetition e l u =>
        rcases hre : reprElemH f h e (ind + 4) with ⟨res, h'⟩
        have hh : h' = h := by
          have := reprElemH_heap f h e (ind + 4)
          rw [hre] at this
          exact this
        rw [hh] at hre
        cases res with
        | ok s => simp [reprElemH, hc, hd, hre]
        | error er => simp [reprElemH, hc, hd, hre]
      | literalString s cs => simp [reprElemH, hc, hd]
      | literalRange a b => simp [reprElemH, hc, hd]
      | ruleCall cn => simp [reprElemH, hc, hd]
/-- reprElemH_heap over the child loop. -/
theorem reprChildrenH_heap (f : Nat) (h : Heap) (es : List ElemId)
    (ind : Nat) (first : Bool) : (reprChildrenH f h es ind first).2 = h := by
  cases es with
  | nil => cases f <;> rfl
  | cons e rest =>
    cases f with
    | zero => rfl
    | succ f =>
      rcases hre : reprElemH f h e ind with ⟨res, h'⟩
      have hh : h' = h := by
        have := reprElemH_heap f h e ind
        rw [hre] at this
        exact this
      rw [hh] at hre
      cases res with
      | ok s =>
        rcases hrc : reprChildrenH f h rest ind false with ⟨res2, h2'⟩
        have hh2 : h2' = h := by
          have := reprChildrenH_heap f h rest ind false
          rw [hrc] at this
          exact this
        rw [hh2] at hrc
        cases res2 with
        | ok srest => simp [reprChildrenH, hre, hrc]
        | error er => simp [reprChildrenH, hre, hrc]
      | error er => simp [reprChildrenH, hre]
end

/-- The rule loop of Grammar.__repr__ returns the heap unchanged. -/
theorem reprRulesH_heap (f : Nat) (h : Heap)
    (rules : List (String × ElemId)) (ind : Nat) (first : Bool) :
    (reprRulesH f h rules ind first).2 = h := by
  induction rules generalizing first with
  | nil => rfl
  | cons p rest ih =>
    obtain ⟨r0, rhs0⟩ := p
    rcases hre : reprElemH f h rhs0 (ind + 5) with ⟨res, h'⟩
    have hh : h' = h := by
      have := reprElemH_heap f h rhs0 (ind + 5)
      rw [hre] at this
      exact this
    rw [hh] at hre
    cases res with
    | ok s =>
      rcases hrr : reprRulesH f h rest ind false with ⟨res2, h2'⟩
      have hh2 : h2' = h := by
        have := ih false
        rw [hrr] at this
        exact this
      rw [hh2] at hrr
      cases res2 with
      | ok srest => simp [reprRulesH, hre, hrr]
      | error er => simp [reprRulesH, hre, hrr]
    | error er => simp [reprRulesH, hre]

mutual
/-- Grammar __repr__ returns the heap unchanged. -/
theorem reprGrammarH_heap (f : Nat) (h : Heap) (gid : GrammarId) (ind : Nat) :
    (reprGrammarH f h gid ind).2 = h := by
  cases f with
  | zero => rfl
  | succ f =>
    cases hg : h.gram gid with
    | none => simp [reprGrammarH, hg]
    | some c =>
      rcases hrr : reprRulesH f h c.grules ind true with ⟨res, h'⟩
      have hh : h' = h := by
        have := reprRulesH_heap f h c.grules ind true
        rw [hrr] at this
        exact this
      rw [hh] at hrr
      cases res with
      | ok rulesPart =>
        rcases hri : reprImportsH f h c.gimports ind true with ⟨res2, h2'⟩
        have hh2 : h2' = h := by
          have := reprImportsH_heap f h c.gimports ind true
          rw [hri] at this
          exact this
        rw [hh2] at hri
        cases res2 with
        | ok importsPart => simp [reprGrammarH, hg, hrr, hri]
        | error er => simp [reprGrammarH, hg, hrr, hri]
      | error er => simp [reprGrammarH, hg, hrr]
/-- reprGrammarH_heap over the import loop. -/
theorem reprImportsH_heap (f : Nat) (h : Heap) (gs : List GrammarId)
    (ind : Nat) (first : Bool) : (reprImportsH f h gs ind first).2 = h := by
  cases gs with
  | nil => cases f <;> rfl
  | cons g rest =>
    cases f with
    | zero => rfl
    | succ f =>
      rcases hrg : reprGrammarH f h g (ind + 4) with ⟨res, h'⟩
      have hh : h' = h := by
        have := reprGrammarH_heap f h g (ind + 4)
        rw [hrg] at this
        exact this
      rw [hh] at hrg
      cases res with
      | ok s =>
        rcases hri : reprImportsH f h rest ind false with ⟨res2, h2'⟩
        have hh2 : h2' = h := by
          have := reprImportsH_heap f h rest ind false
          rw [hri] at this
          exact this
        rw [hh2] at hri
        cases res2 with
        | ok srest => simp [reprImportsH, hrg, hri]
        | error er => simp [reprImportsH, hrg, hri]
      | error er => simp [reprImportsH, hrg]
end

/-- The rule loop of Grammar.__str__ returns the heap unchanged. -/
theorem strRulesH_heap (f : Nat) (h : Heap)
    (rules : List (String × ElemId)) : (strRulesH f h rules).2 = h := by
  induction rules with
  | nil => rfl
  | cons p rest ih =>
    obtain ⟨r0, rhs0⟩ := p
    rcases hse : strElemH f h rhs0 false with ⟨res, h'⟩
    have hh : h' = h := by
      have := strElemH_heap f h rhs0 false
      rw [hse] at this
      exact this
    rw [hh] at hse
    cases res with
    | ok s =>
      rcases hsr : strRulesH f h rest with ⟨res2, h2'⟩
      have hh2 : h2' = h := by
        have := ih
        rw [hsr] at this
        exact this
      rw [hh2] at hsr
      cases res2 with
      | ok srest => simp [strRulesH, hse, hsr]
      | error er => simp [strRulesH, hse, hsr]
    | error er => simp [strRulesH, hse]

/-- Grammar __str__ returns the heap unchanged. -/
theorem strGrammarH_heap (f : Nat) (h : Heap) (gid : GrammarId) :
    (strGrammarH f h gid).2 = h := by
  cases hg : h.gram gid with
  | none => simp [strGrammarH, hg]
  | some c =>
    cases hin : importNamesH h c.gimports with
    | error er => simp [strGrammarH, hg, hin]
    | ok names =>
      rcases hsr : strRulesH f h c.grules with ⟨res, h'⟩
      have hh : h' = h := by
        have := strRulesH_heap f h c.grules
        rw [hsr] at this
        exact this
      rw [hh] at hsr
      cases res with
      | ok rulesPart => simp [strGrammarH, hg, hin, hsr]
      | error er => simp [strGrammarH, hg, hin, hsr]

/-! ## Claim C8 -/

/-- C8: every read operation on a grammar and its elements — rule
lookup, membership, iteration, length, equality comparison of elements
and grammars, string and debug rendering, the sequence protocol of
Alternation and Concatenation, and every property accessor — returns
the heap exactly as it received it: no field of any grammar or element
object is mutated. -/
theorem c8_reads_do_not_mutate (f : Nat) (h : Heap) (gid g2 : GrammarId)
    (n : String) (i j : ElemId) (k ind : Nat) (b : Bool) :
    (getitemH f h gid n).2 = h ∧
    (containsH f h gid n).2 = h ∧
    (iterH f h gid).2 = h ∧
    (lenH f h gid).2 = h ∧
    (pyEqElem f h i j).2 = h ∧
    (pyEqGrammar f h gid g2).2 = h ∧
    (strElemH f h i b).2 = h ∧
    (reprElemH f h i ind).2 = h ∧
    (strGrammarH f h gid).2 = h ∧
    (reprGrammarH f h gid ind).2 = h ∧
    (parentOfH h i).2 = h ∧
    (ruleOfH h i).2 = h ∧
    (grammarOfH h i).2 = h ∧
    (repElementH h i).2 = h ∧
    (repLowerH h i).2 = h ∧
    (repUpperH h i).2 = h ∧
    (litStringH h i).2 = h ∧
    (litCaseH h i).2 = h ∧
    (rangeFirstH h i).2 = h ∧
    (rangeLastH h i).2 = h ∧
    (callOfH h i).2 = h ∧
    (seqLenH h i).2 = h ∧
    (seqGetH h i k).2 = h ∧
    (gramNameH h gid).2 = h ∧
    (gramRulesH h gid).2 = h ∧
    (gramImportsH h gid).2 = h := by
  refine ⟨getitemH_heap f h gid n, containsH_heap f h gid n, iterH_heap f h gid,
    lenH_heap f h gid, pyEqElem_heap f h i j, pyEqGrammar_heap f h gid g2,
    strElemH_heap f h i b, reprElemH_heap f h i ind, strGrammarH_heap f h gid,
    reprGrammarH_heap f h gid ind, ?_, ?_, ?_, ?_, ?_, ?_, ?_, ?_, ?_, ?_,
    ?_, ?_, ?_, ?_, ?_, ?_⟩
  · cases hc : h.elem i <;> simp [parentOfH, hc]
  · cases hc : h.elem i <;> simp [ruleOfH, hc]
  · cases hc : h.elem i <;> simp [grammarOfH, hc]
  · cases hc : h.elem i with
    | none => simp [repElementH, hc]
    | some c => cases hd : c.data <;> simp [repElementH, hc, hd]
  · cases hc : h.elem i with
    | none => simp [repLowerH, hc]
    | some c => cases hd : c.data <;> simp [repLowerH, hc, hd]
  · cases hc : h.elem i with
    | none => simp [repUpperH, hc]
    | some c => cases hd : c.data <;> simp [repUpperH, hc, hd]
  · cases hc : h.elem i with
    | none => simp [litStringH, hc]
    | some c => cases hd : c.data <;> simp [litStringH, hc, hd]
  · cases hc : h.elem i with
    | none => simp [litCaseH, hc]
    | some c => cases hd : c.data <;> simp [litCaseH, hc, hd]
  · cases hc : h.elem i with
    | none => simp [rangeFirstH, hc]
    | some c => cases hd : c.data <;> simp [rangeFirstH, hc, hd]
  · cases hc : h.elem i with
    | none => simp [rangeLastH, hc]
    | some c => cases hd : c.data <;> simp [rangeLastH, hc, hd]
  · cases hc : h.elem i with
    | none => simp [callOfH, hc]
    | some c => cases hd : c.data <;> simp [callOfH, hc, hd]
  · cases hc : h.elem i with
    | none => simp [seqLenH, hc]
    | some c => cases hd : c.data <;> simp [seqLenH, hc, hd]
  · cases hc : h.elem i with
    | none => simp [seqGetH, hc]
    | some c =>
      cases hd : c.data with
      | alternation es => cases hgk : es[k]? <;> simp [seqGetH, hc, hd, hgk]
      | concatenation es => cases hgk : es[k]? <;> simp [seqGetH, hc, hd, hgk]
      | repetition e l u => simp [seqGetH, hc, hd]
      | literalString s cs => simp [seqGetH, hc, hd]
      | literalRange a b2 => simp [seqGetH, hc, hd]
      | ruleCall cn => simp [seqGetH, hc, hd]
  · cases hg : h.gram gid <;> simp [gramNameH, hg]
  · cases hg : h.gram gid <;> simp [gramRulesH, hg]
  · cases hg : h.gram gid <;> simp [gramImportsH, hg]

end ABNFEarley
